import Mathlib

/-!
Verification development for the rstparser repository.

The definitions below are shallow embeddings of the Rust source files
(src/parser.rs, src/processor.rs, src/aggregator.rs, src/extractor.rs,
src/directive_functions.rs, src/link_data.rs, src/main.rs).  Rust strings
are modelled as lists of characters (byte positions coincide with character
positions on ASCII input; a separate byte-level model is used where the
byte/character distinction matters).  Rust HashMap values are modelled as
association lists; HashMap insert replaces the value stored at an existing
key.  Rust char::is_whitespace is modelled by Char.isWhitespace, which
agrees with it on ASCII input.
-/

namespace RstParser

/-! ## Association lists (model of Rust HashMap) -/

/-- First value stored under a key, like HashMap::get. -/
def lookupA {α β : Type} [DecidableEq α] : List (α × β) → α → Option β
  | [], _ => none
  | (k, v) :: r, a => if k = a then some v else lookupA r a

/-- HashMap::insert: replace the value at the key if present, else add the pair. -/
def insertA {α β : Type} [DecidableEq α] : List (α × β) → α → β → List (α × β)
  | [], a, b => [(a, b)]
  | (k, v) :: r, a, b => if k = a then (a, b) :: r else (k, v) :: insertA r a b

/-- Keys of an association list. -/
def keysA {α β : Type} (m : List (α × β)) : List α := m.map Prod.fst

@[simp] theorem lookupA_nil {α β : Type} [DecidableEq α] (a : α) :
    lookupA ([] : List (α × β)) a = none := rfl

@[simp] theorem lookupA_cons {α β : Type} [DecidableEq α] (k : α) (v : β) (r : List (α × β)) (a : α) :
    lookupA ((k, v) :: r) a = if k = a then some v else lookupA r a := rfl

@[simp] theorem insertA_nil {α β : Type} [DecidableEq α] (a : α) (b : β) :
    insertA ([] : List (α × β)) a b = [(a, b)] := rfl

@[simp] theorem insertA_cons {α β : Type} [DecidableEq α] (k : α) (v : β) (r : List (α × β)) (a : α) (b : β) :
    insertA ((k, v) :: r) a b = if k = a then (a, b) :: r else (k, v) :: insertA r a b := rfl

@[simp] theorem keysA_nil {α β : Type} : keysA ([] : List (α × β)) = [] := rfl

@[simp] theorem keysA_cons {α β : Type} (k : α) (v : β) (r : List (α × β)) :
    keysA ((k, v) :: r) = k :: keysA r := rfl

theorem lookupA_insertA_self {α β : Type} [DecidableEq α] (m : List (α × β)) (a : α) (b : β) :
    lookupA (insertA m a b) a = some b := by
  induction m with
  | nil => simp
  | cons p r ih =>
    obtain ⟨k, v⟩ := p
    by_cases h : k = a <;> simp [h, ih]

theorem lookupA_insertA_ne {α β : Type} [DecidableEq α] (m : List (α × β)) (a c : α) (b : β)
    (h : c ≠ a) : lookupA (insertA m a b) c = lookupA m c := by
  induction m with
  | nil => simp [Ne.symm h]
  | cons p r ih =>
    obtain ⟨k, v⟩ := p
    rw [insertA_cons]
    by_cases hk : k = a
    · subst hk
      rw [if_pos rfl, lookupA_cons, lookupA_cons,
        if_neg (fun hac => h hac.symm), if_neg (fun hac => h hac.symm)]
    · rw [if_neg hk, lookupA_cons, lookupA_cons]
      by_cases hc : k = c
      · rw [if_pos hc, if_pos hc]
      · rw [if_neg hc, if_neg hc]; exact ih

theorem keysA_insertA_superset {α β : Type} [DecidableEq α] (m : List (α × β)) (a : α) (b : β)
    (c : α) (h : c ∈ keysA m) : c ∈ keysA (insertA m a b) := by
  induction m with
  | nil => simp at h
  | cons p r ih =>
    obtain ⟨k, v⟩ := p
    rw [keysA_cons, List.mem_cons] at h
    by_cases hk : k = a
    · subst hk
      rcases h with h | h
      · simp [h]
      · simp [List.mem_cons, h]
    · rcases h with h | h
      · simp [hk, h]
      · simp only [insertA_cons, if_neg hk, keysA_cons, List.mem_cons]
        exact Or.inr (ih h)

theorem mem_keysA_insertA_self {α β : Type} [DecidableEq α] (m : List (α × β)) (a : α) (b : β) :
    a ∈ keysA (insertA m a b) := by
  induction m with
  | nil => simp
  | cons p r ih =>
    obtain ⟨k, v⟩ := p
    by_cases hk : k = a
    · simp [hk]
    · simp only [insertA_cons, if_neg hk, keysA_cons, List.mem_cons]
      exact Or.inr ih

theorem mem_keysA_insertA {α β : Type} [DecidableEq α] (m : List (α × β)) (a : α) (b : β) (c : α)
    (h : c ∈ keysA (insertA m a b)) : c = a ∨ c ∈ keysA m := by
  induction m with
  | nil => simp at h; exact Or.inl h
  | cons p r ih =>
    obtain ⟨k, v⟩ := p
    rw [insertA_cons] at h
    by_cases hk : k = a
    · subst hk
      rw [if_pos rfl] at h
      rw [keysA_cons, List.mem_cons] at h
      rcases h with h | h
      · exact Or.inl h
      · exact Or.inr (by simp [h])
    · rw [if_neg hk, keysA_cons, List.mem_cons] at h
      rcases h with h | h
      · exact Or.inr (by simp [h])
      · rcases ih h with h' | h'
        · exact Or.inl h'
        · exact Or.inr (by simp [h'])

theorem lookupA_eq_none_of_not_mem_keysA {α β : Type} [DecidableEq α] (m : List (α × β)) (a : α)
    (h : a ∉ keysA m) : lookupA m a = none := by
  induction m with
  | nil => simp
  | cons p r ih =>
    obtain ⟨k, v⟩ := p
    rw [keysA_cons, List.mem_cons] at h
    push_neg at h
    rw [lookupA_cons, if_neg (fun hk => h.1 hk.symm)]
    exact ih h.2

theorem lookupA_mem_keysA {α β : Type} [DecidableEq α] (m : List (α × β)) (a : α) (b : β)
    (h : lookupA m a = some b) : a ∈ keysA m := by
  induction m with
  | nil => simp at h
  | cons p r ih =>
    obtain ⟨k, v⟩ := p
    by_cases hk : k = a
    · simp [hk]
    · rw [lookupA_cons, if_neg hk] at h
      rw [keysA_cons, List.mem_cons]
      exact Or.inr (ih h)

/-! ## Character-level string primitives mirroring Rust str methods -/

/-- Decidable check that the first list starts the second. -/
def startsL {α : Type} [DecidableEq α] : List α → List α → Bool
  | [], _ => true
  | _ :: _, [] => false
  | a :: as, b :: bs => a = b && startsL as bs

@[simp] theorem startsL_nil_left {α : Type} [DecidableEq α] (s : List α) :
    startsL ([] : List α) s = true := by cases s <;> rfl

theorem startsL_iff {α : Type} [DecidableEq α] (p s : List α) :
    startsL p s = true ↔ ∃ t, s = p ++ t := by
  induction p generalizing s with
  | nil => simp
  | cons a as ih =>
    cases s with
    | nil =>
      simp [startsL]
    | cons b bs =>
      simp only [startsL, Bool.and_eq_true, decide_eq_true_eq, ih]
      constructor
      · rintro ⟨rfl, t, rfl⟩
        exact ⟨t, rfl⟩
      · rintro ⟨t, h⟩
        rw [List.cons_append] at h
        injection h with h1 h2
        exact ⟨h1.symm, t, h2⟩

theorem startsL_length_le {α : Type} [DecidableEq α] (p s : List α)
    (h : startsL p s = true) : p.length ≤ s.length := by
  obtain ⟨t, rfl⟩ := (startsL_iff p s).mp h
  simp

/-- Rust str::find for a substring: position of the first occurrence. -/
def findSub {α : Type} [DecidableEq α] : List α → List α → Option Nat
  | [], pat => if startsL pat [] then some 0 else none
  | c :: rest, pat =>
    if startsL pat (c :: rest) then some 0 else (findSub rest pat).map (· + 1)

@[simp] theorem findSub_nil {α : Type} [DecidableEq α] (pat : List α) :
    findSub ([] : List α) pat = if startsL pat [] then some 0 else none := rfl

theorem findSub_cons {α : Type} [DecidableEq α] (c : α) (rest pat : List α) :
    findSub (c :: rest) pat =
      if startsL pat (c :: rest) then some 0 else (findSub rest pat).map (· + 1) := rfl

/-- Soundness: the pattern occurs at a found index. -/
theorem findSub_sound {α : Type} [DecidableEq α] (s pat : List α) (i : Nat)
    (h : findSub s pat = some i) : startsL pat (s.drop i) = true := by
  induction s generalizing i with
  | nil =>
    rw [findSub_nil] at h
    by_cases hp : startsL pat ([] : List α) = true
    · rw [if_pos hp] at h
      injection h with h'
      subst h'
      simpa using hp
    · rw [if_neg hp] at h
      exact absurd h (by simp)
  | cons c rest ih =>
    rw [findSub_cons] at h
    by_cases hp : startsL pat (c :: rest) = true
    · rw [if_pos hp] at h
      injection h with h'
      subst h'
      simpa using hp
    · rw [if_neg hp, Option.map_eq_some'] at h
      obtain ⟨j, hj, hji⟩ := h
      subst hji
      simpa using ih j hj

/-- Completeness: if the pattern occurs at index j, some index at most j is found. -/
theorem findSub_complete {α : Type} [DecidableEq α] (s pat : List α) (j : Nat)
    (h : startsL pat (s.drop j) = true) : ∃ i, findSub s pat = some i ∧ i ≤ j := by
  induction s generalizing j with
  | nil =>
    refine ⟨0, ?_, Nat.zero_le j⟩
    simp only [List.drop_nil] at h
    simp [h]
  | cons c rest ih =>
    rw [findSub_cons]
    by_cases hp : startsL pat (c :: rest) = true
    · exact ⟨0, by simp [hp], Nat.zero_le j⟩
    · match j with
      | 0 => simp only [List.drop_zero] at h; exact absurd h hp
      | j' + 1 =>
        simp only [List.drop_succ_cons] at h
        obtain ⟨i, hi, hij⟩ := ih j' h
        exact ⟨i + 1, by simp [hp, hi], Nat.succ_le_succ hij⟩

/-- A found index plus the pattern length stays within the string when the
pattern is nonempty. -/
theorem findSub_le_length {α : Type} [DecidableEq α] (s pat : List α) (i : Nat)
    (hpat : pat ≠ []) (h : findSub s pat = some i) : i + pat.length ≤ s.length := by
  have hp := findSub_sound s pat i h
  have hlen : pat.length ≤ (s.drop i).length := startsL_length_le pat _ hp
  have hidx : i ≤ s.length := by
    by_contra hc
    push_neg at hc
    rw [List.drop_eq_nil_of_le (Nat.le_of_lt hc)] at hp
    obtain ⟨t, ht⟩ := (startsL_iff pat []).mp hp
    exact hpat (List.append_eq_nil.mp ht.symm).1
  rw [List.length_drop] at hlen
  omega

/-- Leading-whitespace strip, like str::trim_start. -/
def trimStartL (l : List Char) : List Char := l.dropWhile Char.isWhitespace

/-- Trailing-whitespace strip, like str::trim_end. -/
def trimEndL (l : List Char) : List Char := (l.reverse.dropWhile Char.isWhitespace).reverse

/-- Both-ends strip, like str::trim. -/
def trimL (l : List Char) : List Char := trimEndL (trimStartL l)

/-- Leading-whitespace width of a line: line.len() - line.trim_start().len(). -/
def indentOf (l : List Char) : Nat := l.length - (trimStartL l).length

/-- Split on newline characters, keeping every piece (so a trailing newline
yields a final empty piece). -/
def splitNl : List Char → List (List Char)
  | [] => [[]]
  | c :: r => if c = '\n' then [] :: splitNl r else (splitNl r).modifyHead (c :: ·)

theorem splitNl_ne_nil (s : List Char) : splitNl s ≠ [] := by
  cases s with
  | nil => simp [splitNl]
  | cons c r =>
    simp only [splitNl]
    split
    · simp
    · have := splitNl_ne_nil r
      cases h : splitNl r with
      | nil => exact absurd h this
      | cons a t => simp [h, List.modifyHead]

theorem splitNl_length (s : List Char) : (splitNl s).length = s.count '\n' + 1 := by
  induction s with
  | nil => simp [splitNl]
  | cons c r ih =>
    simp only [splitNl]
    by_cases h : c = '\n'
    · subst h
      simp [List.count_cons, ih]
    · rw [if_neg h]
      rw [List.length_modifyHead, ih, List.count_cons, if_neg (by simpa using h)]

/-- Strip one trailing carriage return, as Rust lines() does per line. -/
def stripCr (l : List Char) : List Char := if l.getLast? = some '\r' then l.dropLast else l

/-- Rust str::lines(): split on newline, drop the trailing empty piece produced
by a final newline (or by an empty string), and strip a trailing carriage
return from each line. -/
def rustLines (s : List Char) : List (List Char) :=
  let ps := splitNl s
  (if ps.getLast? = some [] then ps.dropLast else ps).map stripCr

/-- Rust lines().count(). -/
def linesCount (s : List Char) : Nat := (rustLines s).length

theorem splitNl_append_nl (t : List Char) : splitNl (t ++ ['\n']) = splitNl t ++ [[]] := by
  induction t with
  | nil => rfl
  | cons c r ih =>
    by_cases h : c = '\n'
    · subst h
      simp [splitNl, ih]
    · cases hr : splitNl r with
      | nil => exact absurd hr (splitNl_ne_nil r)
      | cons a t' =>
        simp [splitNl, h, ih, hr]

theorem splitNl_append_ch (t : List Char) (c : Char) (h : c ≠ '\n') :
    ∃ ps lp, splitNl t = ps ++ [lp] ∧ splitNl (t ++ [c]) = ps ++ [lp ++ [c]] := by
  induction t with
  | nil =>
    refine ⟨[], [], rfl, ?_⟩
    simp [splitNl, h]
  | cons d r ih =>
    obtain ⟨ps, lp, h1, h2⟩ := ih
    by_cases hd : d = '\n'
    · subst hd
      refine ⟨[] :: ps, lp, ?_, ?_⟩
      · simp [splitNl, h1]
      · simp [splitNl, h2]
    · cases ps with
      | nil =>
        refine ⟨[], d :: lp, ?_, ?_⟩
        · simp [splitNl, hd, h1]
        · simp [splitNl, hd, h2]
      | cons p ps' =>
        refine ⟨(d :: p) :: ps', lp, ?_, ?_⟩
        · simp [splitNl, hd, h1]
        · simp [splitNl, hd, h2]

theorem linesCount_le_splitNl_length (t : List Char) : linesCount t ≤ (splitNl t).length := by
  simp only [linesCount, rustLines]
  rw [List.length_map]
  split
  · rw [List.length_dropLast]
    exact Nat.sub_le _ _
  · exact Nat.le_refl _

theorem linesCount_le_concat (t : List Char) (c : Char) :
    linesCount t ≤ linesCount (t ++ [c]) := by
  by_cases h : c = '\n'
  · subst h
    have heq : linesCount (t ++ ['\n']) = (splitNl t).length := by
      simp only [linesCount, rustLines, splitNl_append_nl t]
      rw [List.getLast?_concat, if_pos rfl, List.dropLast_concat, List.length_map]
    rw [heq]
    exact linesCount_le_splitNl_length t
  · obtain ⟨ps, lp, h1, h2⟩ := splitNl_append_ch t c h
    have heq : linesCount (t ++ [c]) = (splitNl t).length := by
      simp only [linesCount, rustLines, h2]
      rw [List.getLast?_concat, if_neg (by simp), List.length_map, h1]
      simp
    rw [heq]
    exact linesCount_le_splitNl_length t

/-- Appending text never decreases the line count. -/
theorem linesCount_le_append (s u : List Char) : linesCount s ≤ linesCount (s ++ u) := by
  induction u using List.reverseRecOn with
  | nil => simp
  | append_singleton us c ih =>
    rw [← List.append_assoc]
    exact ih.trans (linesCount_le_concat (s ++ us) c)

/-- Line counts of the starting segments of a text are monotone. -/
theorem linesCount_take_mono (s : List Char) (p q : Nat) (h : p ≤ q) :
    linesCount (s.take p) ≤ linesCount (s.take q) := by
  have h2 : s.take q = s.take p ++ ((s.take q).drop p) := by
    conv_lhs => rw [← List.take_append_drop p (s.take q)]
    rw [List.take_take, Nat.min_eq_left h]
  rw [h2]
  exact linesCount_le_append _ _

/-! ## The RST directive parser (src/parser.rs) -/

/-- Parser output record (struct Directive in src/parser.rs). -/
structure RDirective where
  name : List Char
  arguments : List Char
  options : List (List Char × List Char)
  content : List Char
  deriving DecidableEq, Repr

/-- The literal directive opening searched for: format of ".. name::". -/
def dirOpen (target : List Char) : List Char :=
  ".. ".toList ++ target ++ "::".toList

/-- Indentation of the first non-empty (after trim_start) line, used as the
block indentation of the directive body. -/
def findBlockIndent : List (List Char) → Option Nat
  | [] => none
  | l :: r =>
    if trimStartL l ≠ [] then some (indentOf l) else findBlockIndent r

/-- splitn(2, close-colon) applied to the text after the leading colon of an
option line: key before the next colon, value after it; none when there is no
second colon. -/
def splitn2Colon (s : List Char) : Option (List Char × List Char) :=
  match findSub s [':'] with
  | some i => some (s.take i, s.drop (i + 1))
  | none => none

/-- Multiline option continuation loop: consume following lines while they are
non-blank and more indented than the option line, collecting their trimmed
text. Returns the collected values and the remaining lines. -/
def collectCont (optIndent : Nat) : List (List Char) → List (List Char) × List (List Char)
  | [] => ([], [])
  | l :: rest =>
    let nextIndent := indentOf l
    let nextTrimmed := trimL l
    if nextTrimmed ≠ [] ∧ nextIndent > optIndent then
      let pr := collectCont optIndent rest
      (nextTrimmed :: pr.1, pr.2)
    else ([], l :: rest)

theorem collectCont_rem_length_le (optIndent : Nat) (ls : List (List Char)) :
    (collectCont optIndent ls).2.length ≤ ls.length := by
  induction ls with
  | nil => simp [collectCont]
  | cons l rest ih =>
    simp only [collectCont]
    split
    · exact Nat.le_succ_of_le ih
    · simp

/-- Decision taken for a line processed as content: break out, push it to
content, or skip it. -/
inductive ContentAct where
  | stop
  | push
  | skip
  deriving DecidableEq

/-- Content-phase handling of one line in the main loop of parse_rst. -/
def contentAct (blockIndent : Option Nat) (currentIndent : Nat)
    (trimmedLine : List Char) : ContentAct :=
  if startsL ".. ".toList trimmedLine ∧ (findSub trimmedLine "::".toList).isSome then .stop
  else
    let partOf : Bool :=
      match blockIndent with
      | none => true
      | some ind => decide (currentIndent ≥ ind ∨ trimmedLine = [])
    if partOf then .push
    else if trimmedLine ≠ [] then .stop
    else .skip

/-- Main line loop of parse_rst: the options phase followed by the content
phase. The fuel argument only serves Lean's termination checker; it is set to
the number of lines, and every step consumes at least one line. -/
def parseBodyGo (blockIndent : Option Nat) :
    Nat → Bool → List (List Char × List Char) → List (List Char) → List (List Char) →
    List (List Char × List Char) × List (List Char)
  | 0, _, opts, content, _ => (opts, content)
  | _ + 1, _, opts, content, [] => (opts, content)
  | fuel + 1, inOpts, opts, content, line :: rest =>
    let currentIndent := indentOf line
    let trimmedLine := trimL line
    let contentPhase : List (List Char × List Char) × List (List Char) :=
      match contentAct blockIndent currentIndent trimmedLine with
      | .stop => (opts, content)
      | .push => parseBodyGo blockIndent fuel false opts (content ++ [line]) rest
      | .skip => parseBodyGo blockIndent fuel false opts content rest
    if inOpts then
      if startsL [':'] trimmedLine then
        match splitn2Colon (trimmedLine.drop 1) with
        | some kv =>
          let key := trimL kv.1
          let pr := collectCont currentIndent rest
          let valueParts := trimStartL kv.2 :: pr.1
          let finalValue :=
            if valueParts.length > 1 ∧ valueParts.head! = [] then
              List.intercalate ['\n'] valueParts.tail
            else List.intercalate ['\n'] valueParts
          parseBodyGo blockIndent fuel true (insertA opts key finalValue) content pr.2
        | none => contentPhase
      else
        if trimmedLine = [] then parseBodyGo blockIndent fuel false opts content rest
        else contentPhase
    else contentPhase

/-- Options and raw content lines of a directive body. -/
def parseBody (blockIndent : Option Nat) (lines : List (List Char)) :
    List (List Char × List Char) × List (List Char) :=
  parseBodyGo blockIndent lines.length true [] [] lines

/-- Minimum leading-whitespace width across non-blank content lines. -/
def minIndentOf (ls : List (List Char)) : Option Nat :=
  ls.foldl
    (fun mi l =>
      if trimL l ≠ [] then
        let cur := (l.takeWhile Char.isWhitespace).length
        match mi with
        | some i => some (min i cur)
        | none => some cur
      else mi)
    none

/-- Dedent one content line: blank lines normalise to empty, other lines lose
the minimum indentation width. -/
def dedentLine (mi : Option Nat) (l : List Char) : List Char :=
  if trimL l = [] then []
  else
    match mi with
    | some i => l.drop i
    | none => l

/-- Remove trailing blank (whitespace-only) lines. -/
def dropTrailingBlank (ls : List (List Char)) : List (List Char) :=
  (ls.reverse.dropWhile (fun l => trimL l = [])).reverse

/-- Shallow embedding of parse_rst (src/parser.rs, lines 14-201). -/
def parse_rst (text : List Char) (target : List Char) : Option (RDirective × Nat) :=
  let ds := dirOpen target
  match findSub text ds with
  | none => none
  | some start_index =>
    let line_number := linesCount (text.take start_index) + 1
    let bodyStart := start_index + ds.length
    let after := text.drop bodyStart
    let line_end := (findSub after ['\n']).getD after.length
    let arguments := trimL (after.take line_end)
    let bodyLines := (rustLines after).drop 1
    let blockIndent := findBlockIndent bodyLines
    let oc := parseBody blockIndent bodyLines
    let mi := minIndentOf oc.2
    let processed := dropTrailingBlank (oc.2.map (dedentLine mi))
    some ({ name := target, arguments := arguments, options := oc.1,
            content := List.intercalate ['\n'] processed }, line_number)

/-- Scan loop of parse_rst_multiple for one directive name: repeated substring
search, the cursor advancing past the matched marker plus one character. The
fuel argument only serves termination; text.length + 1 is always enough. -/
def scanGo (text pat : List Char) : Nat → Nat → List Nat
  | 0, _ => []
  | fuel + 1, pos =>
    match findSub (text.drop pos) pat with
    | none => []
    | some si =>
      let abs := pos + si
      abs ::
        (if abs + pat.length < text.length then scanGo text pat fuel (abs + pat.length + 1)
         else [])

/-- All match positions visited by the scan loop of parse_rst_multiple. -/
def scanPositions (text pat : List Char) : List Nat :=
  scanGo text pat (text.length + 1) 0

/-- Stable insertion into a list sorted by text position (first component). -/
def insertByPos (x : Nat × RDirective × Nat) :
    List (Nat × RDirective × Nat) → List (Nat × RDirective × Nat)
  | [] => [x]
  | y :: r => if x.1 < y.1 then x :: y :: r else y :: insertByPos x r

/-- Stable sort by text position, modelling sort_by_key (a stable sort) in
parse_rst_multiple. -/
def sortByPos (l : List (Nat × RDirective × Nat)) : List (Nat × RDirective × Nat) :=
  l.foldl (fun acc x => insertByPos x acc) []

/-- Collection loop of parse_rst_multiple: for every target name, parse the
text at every scanned match position, recording the position, the directive
and the absolute line number. -/
def collectMatches (text : List Char) (targets : List (List Char)) :
    List (Nat × RDirective × Nat) :=
  (targets.map (fun name =>
    let pat := dirOpen name
    (scanPositions text pat).filterMap (fun abs =>
      (parse_rst (text.drop abs) name).map (fun dr =>
        (abs, dr.1, linesCount (text.take abs) + dr.2))))).flatten

/-- Shallow embedding of parse_rst_multiple (src/parser.rs, lines 205-250). -/
def parse_rst_multiple (text : List Char) (targets : List (List Char)) :
    List (RDirective × Nat) :=
  (sortByPos (collectMatches text targets)).map (fun t => (t.2.1, t.2.2))

/-! ## Byte-level model of the scan loop of parse_rst_multiple

Rust strings are indexed by bytes, and slicing panics when the start index is
not a UTF-8 character boundary.  The loop in parse_rst_multiple advances the
cursor by directive_start.len() and then by one more byte, without checking
boundaries, before slicing text at the cursor.  The model below replays
exactly that cursor arithmetic over the UTF-8 bytes of the text; a slice at a
non-boundary (which makes the Rust program panic) is represented by none. -/

/-- Rust str::is_char_boundary: index 0, the total length, or a position whose
byte is not a UTF-8 continuation byte (i.e. byte < 0x80 or byte >= 0xC0). -/
def isCharBoundary (bytes : List Nat) (i : Nat) : Bool :=
  if i = 0 then true
  else
    match bytes.get? i with
    | none => i = bytes.length
    | some b => b < 0x80 ∨ 0xC0 ≤ b

/-- Byte-level scan loop of parse_rst_multiple for one directive name.
Returns the list of match positions, or none if the loop slices the text at a
non-boundary index (a panic in Rust). The fuel is text.length + 1 as usual. -/
def scanBytesGo (text pat : List Nat) : Nat → Nat → Option (List Nat)
  | 0, _ => some []
  | fuel + 1, pos =>
    if isCharBoundary text pos then
      match findSub (text.drop pos) pat with
      | none => some []
      | some si =>
        let abs := pos + si
        let rest :=
          if abs + pat.length < text.length then
            scanBytesGo text pat fuel (abs + pat.length + 1)
          else some []
        rest.map (abs :: ·)
    else none

/-- Byte positions scanned by parse_rst_multiple, or none on a panic. -/
def scanBytes (text pat : List Nat) : Option (List Nat) :=
  scanBytesGo text pat (text.length + 1) 0

/-- UTF-8 encoding of one character, as natural numbers. -/
def utf8EncodeCharN (c : Char) : List Nat :=
  let v := c.toNat
  if v < 0x80 then [v]
  else if v < 0x800 then [0xC0 ||| (v >>> 6), 0x80 ||| (v &&& 0x3F)]
  else if v < 0x10000 then
    [0xE0 ||| (v >>> 12), 0x80 ||| ((v >>> 6) &&& 0x3F), 0x80 ||| (v &&& 0x3F)]
  else
    [0xF0 ||| (v >>> 18), 0x80 ||| ((v >>> 12) &&& 0x3F), 0x80 ||| ((v >>> 6) &&& 0x3F),
      0x80 ||| (v &&& 0x3F)]

/-- UTF-8 bytes of a string, as natural numbers. -/
def utf8Bytes (s : String) : List Nat := (s.data.map utf8EncodeCharN).flatten

/-- Rust str::trim over Lean strings, via the character-list model (Lean's
own String.trim is not kernel-reducible). -/
def trimS (s : String) : String := String.mk (trimL s.data)

/-- Split a character list on commas, keeping every piece. -/
def splitComma : List Char → List (List Char)
  | [] => [[]]
  | c :: r => if c = ',' then [] :: splitComma r else (splitComma r).modifyHead (c :: ·)

/-- Rust str::split with a comma separator, over Lean strings. -/
def splitCommaS (s : String) : List String := (splitComma s.data).map String.mk

/-! ## The extractor dispatch (src/extractor.rs, extract_from_file) -/

/-- Shallow embedding of RstExtractor::extract_from_file.  The file path only
enters through its extension (Path::extension, yielding none when there is no
extension), so the model takes the extension directly.  The two host-language
extraction routines are parameters: the dispatch logic does not depend on
them. -/
def extract_from_file (extractCpp extractPy : String → String)
    (ext : Option String) (content : String) : String :=
  if ext = some "cpp" ∨ ext = some "h" ∨ ext = some "hpp" ∨ ext = some "cxx" ∨
      ext = some "hxx" ∨ ext = some "cc" ∨ ext = some "hh" then extractCpp content
  else if ext = some "py" then extractPy content
  else if ext = some "rst" then content
  else ""

/-- The extensions recognised by extract_from_file. -/
def recognisedExts : List String :=
  ["cpp", "h", "hpp", "cxx", "hxx", "cc", "hh", "py", "rst"]

/-! ## Directive id generation (src/processor.rs, process_file) -/

/-- Shallow embedding of the id computation in Processor::process_file:
use the trimmed :id: option when present and non-empty, otherwise the
synthetic "canonical_source_file:name:line_number" string. -/
def generateId (options : List (String × String)) (canonicalSourceFile : String)
    (name : String) (lineNumber : Nat) : String :=
  ((((lookupA options "id").map (fun v => trimS v)).filter (fun v => v ≠ "")).getD
    (canonicalSourceFile ++ ":" ++ name ++ ":" ++ toString lineNumber))

/-! ## The link graph builder (src/link_data.rs, src/directive_functions.rs)

Strings at this level are Lean strings; directive ids, option keys and option
values are plain text.  The LinkGraph HashMap is an association list of
id/node pairs; iteration order of the store is the order of the list. -/

/-- LinkNodeData (src/link_data.rs): outgoing and incoming edge maps. -/
structure LinkNodeData where
  outgoing_links : List (String × List String)
  incoming_links : List (String × List String)
  deriving DecidableEq, Repr

instance : Inhabited LinkNodeData := ⟨⟨[], []⟩⟩

/-- Default node, as produced by HashMap entry().or_default(). -/
def defaultNode : LinkNodeData := ⟨[], []⟩

/-- The LinkGraph: directive id to node data. -/
abbrev LinkGraph : Type := List (String × LinkNodeData)

/-- One directive of the store, as seen by the graph builder: its instance id
and its parsed options. -/
structure StoreEntry where
  id : String
  options : List (String × String)
  deriving DecidableEq, Repr

/-- HashMap entry().or_default(): keep an existing node, create a default one
otherwise. -/
def entryOrDefault (g : LinkGraph) (k : String) : LinkGraph :=
  if (lookupA g k).isSome then g else g ++ [(k, defaultNode)]

/-- HashMap get_mut followed by an update of the node: the entry stored under
the key is updated in place; absent keys leave the graph untouched (the
corresponding Rust branches only log). -/
def modifyG : LinkGraph → String → (LinkNodeData → LinkNodeData) → LinkGraph
  | [], _, _ => []
  | kv :: r, k, f => if kv.1 = k then (kv.1, f kv.2) :: r else kv :: modifyG r k f

/-- Comma-separated target list of a link option value: split on commas, trim
each fragment, drop empty fragments. -/
def splitTargets (v : String) : List String :=
  ((splitCommaS v).map (fun s => trimS s)).filter (fun s => s ≠ "")

/-- Pass 1 of BacklinkFunction::apply: collect (field, target ids) pairs for
every configured link field present in the options, and make sure the source
node and all target nodes exist. -/
def backlinkPass1 (cfg : List String) (id : String) (options : List (String × String))
    (g : LinkGraph) : List (String × List String) × LinkGraph :=
  cfg.foldl
    (fun acc field =>
      match lookupA options field with
      | none => acc
      | some v =>
        if v = "" then acc
        else
          let tids := splitTargets v
          if tids = [] then acc
          else
            let g1 := entryOrDefault acc.2 id
            let g2 := tids.foldl (fun g t => if t ≠ id then entryOrDefault g t else g) g1
            (acc.1 ++ [(field, tids)], g2))
    ([], g)

/-- Pass 3 inner loop: record the incoming backlink on every target, skipping
(and warning about) self references. Returns the updated graph and the
(source id, field) pairs of the emitted self-reference warnings. -/
def backlinkPass3Targets (sourceId field : String) (tids : List String)
    (g : LinkGraph) : LinkGraph × List (String × String) :=
  tids.foldl
    (fun acc t =>
      if t = sourceId then (acc.1, acc.2 ++ [(sourceId, field)])
      else
        (modifyG acc.1 t (fun nd =>
          let cur := (lookupA nd.incoming_links (field ++ "_back")).getD []
          let upd := if sourceId ∈ cur then cur else cur ++ [sourceId]
          { nd with incoming_links := insertA nd.incoming_links (field ++ "_back") upd }),
         acc.2))
    (g, [])

/-- Pass 3 of BacklinkFunction::apply: extend the source's outgoing lists and
record incoming backlinks on the targets. -/
def backlinkPass3 (id : String) (ltp : List (String × List String))
    (g : LinkGraph) : LinkGraph × List (String × String) :=
  ltp.foldl
    (fun acc fv =>
      let g1 := modifyG acc.1 id (fun nd =>
        let prev := (lookupA nd.outgoing_links fv.1).getD []
        { nd with outgoing_links := insertA nd.outgoing_links fv.1 (prev ++ fv.2) })
      let pr := backlinkPass3Targets id fv.1 fv.2 g1
      (pr.1, acc.2 ++ pr.2))
    (g, [])

/-- Shallow embedding of BacklinkFunction::apply
(src/directive_functions.rs, lines 33-118). -/
def backlinkApply (cfg : List String) (id : String) (options : List (String × String))
    (g : LinkGraph) : LinkGraph × List (String × String) :=
  let p1 := backlinkPass1 cfg id options g
  let g2 := modifyG p1.2 id (fun nd => { nd with outgoing_links := [] })
  backlinkPass3 id p1.1 g2

/-- Shallow embedding of FunctionApplicator::apply_to_all
(src/directive_functions.rs, lines 158-188): clear all incoming links, retain
only nodes whose id belongs to the store, then apply the backlink function to
every directive of the store. -/
def apply_to_all (cfg : List String) (store : List StoreEntry) (g : LinkGraph) :
    LinkGraph × List (String × String) :=
  let cleared : LinkGraph := g.map (fun kv => (kv.1, { kv.2 with incoming_links := [] }))
  let valid := store.map StoreEntry.id
  let retained : LinkGraph := cleared.filter (fun kv => kv.1 ∈ valid)
  store.foldl
    (fun acc d =>
      let pr := backlinkApply cfg d.id d.options acc.1
      (pr.1, acc.2 ++ pr.2))
    (retained, [])

/-- Shallow embedding of remove_links_for_ids (src/link_data.rs, lines 59-103). -/
def remove_links_for_ids (g : LinkGraph) (idsToRemove : List String) : LinkGraph :=
  let updates : List (String × String × String) :=
    (idsToRemove.map (fun rid =>
      match lookupA g rid with
      | none => []
      | some nd =>
        (nd.outgoing_links.map (fun ft =>
          (ft.2.filter (fun t => t ∉ idsToRemove)).map
            (fun t => (t, ft.1 ++ "_back", rid)))).flatten)).flatten
  let g1 := updates.foldl
    (fun g u =>
      modifyG g u.1 (fun nd =>
        match lookupA nd.incoming_links u.2.1 with
        | none => nd
        | some srcs =>
          let srcs' := srcs.filter (fun s => s ≠ u.2.2)
          if srcs' = [] then
            { nd with incoming_links :=
                nd.incoming_links.filter (fun kv => kv.1 ≠ u.2.1) }
          else { nd with incoming_links := insertA nd.incoming_links u.2.1 srcs' }))
    g
  g1.filter (fun kv => kv.1 ∉ idsToRemove)

/-- Shallow embedding of FunctionApplicator::apply_to_subset
(src/directive_functions.rs, lines 195-215). -/
def apply_to_subset (cfg : List String) (ds : List StoreEntry) (g : LinkGraph) :
    LinkGraph × List (String × String) :=
  ds.foldl
    (fun acc d =>
      let pr := backlinkApply cfg d.id d.options acc.1
      (pr.1, acc.2 ++ pr.2))
    (g, [])

/-- Final cleanup of the watch-mode event loop (src/main.rs, lines 331-338):
drop every LinkGraph node whose id is not a current directive id. -/
def retainValid (validIds : List String) (g : LinkGraph) : LinkGraph :=
  g.filter (fun kv => kv.1 ∈ validIds)

/-- Graph maintenance of one watch-mode Create/Modify event for directives
that already have their new parse (src/main.rs, lines 281-339): clear links of
the affected ids, re-apply the backlink function to the re-parsed directives
(plus neighbours), then retain only nodes of currently existing directives. -/
def watchUpdate (cfg : List String) (idsToClear : List String)
    (toReapply : List StoreEntry) (validIds : List String) (g : LinkGraph) : LinkGraph :=
  let g1 := remove_links_for_ids g idsToClear
  let g2 := (apply_to_subset cfg toReapply g1).1
  retainValid validIds g2

/-! ## The emitter's option enrichment (src/aggregator.rs, create_directive_outputs) -/

/-- Shallow embedding of the options computation in
Aggregator::create_directive_outputs (src/aggregator.rs, lines 70-92): start
from the directive's own options and add, for every incoming backlink list
that is non-empty, the comma-joined source ids under the backlink key. -/
def emitOptions (g : LinkGraph) (id : String) (options : List (String × String)) :
    List (String × String) :=
  match lookupA g id with
  | none => options
  | some nd =>
    nd.incoming_links.foldl
      (fun acc kv =>
        if kv.2 ≠ [] then insertA acc kv.1 (String.intercalate "," kv.2)
        else acc)
      options

/-! ## Helper lemmas about parse_rst -/

theorem parse_rst_eq_none_iff (text name : List Char) :
    parse_rst text name = none ↔ findSub text (dirOpen name) = none := by
  unfold parse_rst
  cases h : findSub text (dirOpen name) <;> simp [h]

theorem parse_rst_isSome_iff (text name : List Char) :
    (parse_rst text name).isSome ↔ (findSub text (dirOpen name)).isSome := by
  unfold parse_rst
  cases h : findSub text (dirOpen name) <;> simp [h]

theorem parse_rst_name_eq (text name : List Char) (d : RDirective) (ln : Nat)
    (h : parse_rst text name = some (d, ln)) : d.name = name := by
  simp only [parse_rst] at h
  cases hf : findSub text (dirOpen name) with
  | none => rw [hf] at h; simp at h
  | some i =>
    rw [hf] at h
    simp only [Option.some.injEq, Prod.mk.injEq] at h
    obtain ⟨h1, -⟩ := h
    rw [← h1]

/-! ## Claim C3 -/

/-- C3: the claim says parse_rst_multiple returns normally on every UTF-8
input and never aborts the processing of a file.  In fact the scan loop
advances the cursor one byte past the matched marker without checking UTF-8
character boundaries, so Rust's string slicing panics: on the valid UTF-8
input ".. a::é" with target name "a", the cursor lands inside the two-byte
encoding of é (byte index 7 is not a character boundary) and the byte-level
model of the loop reports the panic (none), while the same input with an
ASCII character in place of é scans fine. -/
theorem c3_panic_on_multibyte :
    scanBytes (utf8Bytes ".. a::é") (utf8Bytes ".. a::") = none ∧
    isCharBoundary (utf8Bytes ".. a::é") 7 = false ∧
    scanBytes (utf8Bytes ".. a:: x") (utf8Bytes ".. a::") = some [0] := ⟨rfl, rfl, rfl⟩

/-! ## Claim C5 -/

/-- C5 counterexample: an opening line ".. foo ::" with spaces around the
name token is not accepted: parse_rst returns none and parse_rst_multiple
returns no record, refuting the claim that the name token is trimmed of
surrounding spaces between ".. " and "::". -/
theorem c5_counterexample :
    parse_rst ".. foo ::".toList "foo".toList = none ∧
    parse_rst_multiple ".. foo ::".toList ["foo".toList] = [] := ⟨rfl, rfl⟩

/-- C5 amended: a directive opening for a target name is recognised exactly
when the literal substring ".. name::" (no spaces between the name and "::",
exactly one space after "..") occurs somewhere in the text, and the parsed
directive then carries that name; openings with extra spaces around the name
are not recognised. -/
theorem c5_opening_recognition_amended (text name : List Char) :
    ((parse_rst text name).isSome ↔ ∃ i, startsL (dirOpen name) (text.drop i) = true) ∧
    (∀ d ln, parse_rst text name = some (d, ln) → d.name = name) := by
  constructor
  · rw [parse_rst_isSome_iff]
    constructor
    · intro h
      obtain ⟨i, hi⟩ := Option.isSome_iff_exists.mp h
      exact ⟨i, findSub_sound _ _ _ hi⟩
    · rintro ⟨i, hi⟩
      obtain ⟨j, hj, -⟩ := findSub_complete text (dirOpen name) i hi
      simp [hj]
  · exact fun d ln h => parse_rst_name_eq text name d ln h

/-- C5 amended, witnessed at a concrete input: ".. req:: x" is recognised for
target name "req"; the parsed name is "req". -/
theorem c5_opening_recognition_amended_witness :
    (parse_rst ".. req:: x".toList "req".toList).isSome ∧
    (∀ d ln, parse_rst ".. req:: x".toList "req".toList = some (d, ln) →
      d.name = "req".toList) :=
  ⟨((c5_opening_recognition_amended ".. req:: x".toList "req".toList).1).mpr
      ⟨0, by decide⟩,
   (c5_opening_recognition_amended ".. req:: x".toList "req".toList).2⟩

/-! ## Claim C7 -/

/-- C7: the id assigned by file processing equals the trimmed :id: option
value whenever that trimmed value is non-empty; when the option is absent or
trims to the empty string (empty or whitespace-only), the id is the synthetic
string canonical_source_file:name:line_number. -/
theorem c7_directive_id (options : List (String × String)) (file name : String) (line : Nat) :
    (∀ v, lookupA options "id" = some v → trimS v ≠ "" →
        generateId options file name line = trimS v) ∧
    (lookupA options "id" = none →
        generateId options file name line = file ++ ":" ++ name ++ ":" ++ toString line) ∧
    (∀ v, lookupA options "id" = some v → trimS v = "" →
        generateId options file name line = file ++ ":" ++ name ++ ":" ++ toString line) := by
  refine ⟨?_, ?_, ?_⟩
  · intro v hv hne
    unfold generateId
    rw [hv]
    simp [Option.filter, hne]
  · intro h
    unfold generateId
    rw [h]
    rfl
  · intro v hv he
    unfold generateId
    rw [hv]
    simp [Option.filter, he]

/-- C7 witness: a non-empty :id: option (with surrounding spaces) is trimmed
and used; a whitespace-only or absent :id: falls back to the synthetic id. -/
theorem c7_directive_id_witness :
    generateId [("id", "  custom  ")] "/a.rst" "req" 7 = "custom" ∧
    generateId [("id", "   ")] "/a.rst" "req" 7 = "/a.rst:req:7" ∧
    generateId [] "/a.rst" "req" 7 = "/a.rst:req:7" :=
  ⟨((c7_directive_id [("id", "  custom  ")] "/a.rst" "req" 7).1 "  custom  " rfl
      (by decide)).trans rfl,
   ((c7_directive_id [("id", "   ")] "/a.rst" "req" 7).2.2 "   " rfl (by decide)),
   ((c7_directive_id [] "/a.rst" "req" 7).2.1 rfl)⟩

/-! ## Claim C9 -/

/-- C9: the extractor's file dispatch is the identity on .rst files and
returns the empty string for every file whose extension is none of the
recognised C/C++ extensions, .py, or .rst (matched case-sensitively),
whatever the two host-language extraction routines do. -/
theorem c9_extractor_dispatch (extractCpp extractPy : String → String) (s : String) :
    extract_from_file extractCpp extractPy (some "rst") s = s ∧
    (∀ ext : Option String, (∀ e, ext = some e → e ∉ recognisedExts) →
        extract_from_file extractCpp extractPy ext s = "") := by
  constructor
  · rfl
  · intro ext h
    match ext with
    | none => rfl
    | some e =>
      have hr : ∀ x : String, x ∈ recognisedExts → some e ≠ some x := by
        intro x hx hex
        injection hex with hex
        exact (h e rfl) (hex ▸ hx)
      unfold extract_from_file
      rw [if_neg (by
            rintro (he | he | he | he | he | he | he) <;>
              exact hr _ (by decide) he),
          if_neg (hr "py" (by decide)), if_neg (hr "rst" (by decide))]

/-- C9 witness: identity on .rst; a .txt file, an upper-case .RST file and an
extensionless file all yield the empty string. -/
theorem c9_extractor_dispatch_witness :
    extract_from_file (fun _ => "C") (fun _ => "P") (some "rst") "body" = "body" ∧
    extract_from_file (fun _ => "C") (fun _ => "P") (some "txt") "body" = "" ∧
    extract_from_file (fun _ => "C") (fun _ => "P") (some "RST") "body" = "" ∧
    extract_from_file (fun _ => "C") (fun _ => "P") none "body" = "" :=
  ⟨(c9_extractor_dispatch _ _ "body").1,
   (c9_extractor_dispatch _ _ "body").2 (some "txt")
      (by intro e he; injection he with h; subst h; decide),
   (c9_extractor_dispatch _ _ "body").2 (some "RST")
      (by intro e he; injection he with h; subst h; decide),
   (c9_extractor_dispatch _ _ "body").2 none (by intro e he; exact absurd he (by simp))⟩

/-! ## Scan and sort lemmas for parse_rst_multiple -/

theorem scanGo_sound (text pat : List Char) :
    ∀ fuel pos p, p ∈ scanGo text pat fuel pos → startsL pat (text.drop p) = true := by
  intro fuel
  induction fuel with
  | zero => intro pos p h; simp [scanGo] at h
  | succ fuel ih =>
    intro pos p h
    simp only [scanGo] at h
    cases hf : findSub (text.drop pos) pat with
    | none => rw [hf] at h; simp at h
    | some si =>
      rw [hf] at h
      simp only [List.mem_cons] at h
      rcases h with h | h
      · subst h
        have hs := findSub_sound _ _ _ hf
        rw [List.drop_drop] at hs
        exact hs
      · by_cases hg : pos + si + pat.length < text.length
        · rw [if_pos hg] at h
          exact ih _ p h
        · rw [if_neg hg] at h
          simp at h

theorem dirOpen_ne_nil (name : List Char) : dirOpen name ≠ [] := by
  simp [dirOpen]

theorem scanGo_coverage (text pat : List Char) (hpat : pat ≠ []) :
    ∀ fuel pos p, text.length + 1 - pos ≤ fuel → pos ≤ p →
      startsL pat (text.drop p) = true →
      ∃ q ∈ scanGo text pat fuel pos, q ≤ p ∧ p ≤ q + pat.length := by
  have hp1 : 1 ≤ pat.length := by
    cases pat with
    | nil => exact absurd rfl hpat
    | cons a r => simp
  intro fuel
  induction fuel with
  | zero =>
    intro pos p hf hpp hocc
    have hb : pat.length ≤ (text.drop p).length := startsL_length_le _ _ hocc
    rw [List.length_drop] at hb
    omega
  | succ fuel ih =>
    intro pos p hf hpp hocc
    have hocc' : startsL pat ((text.drop pos).drop (p - pos)) = true := by
      rw [List.drop_drop]
      have he : pos + (p - pos) = p := by omega
      rw [he]
      exact hocc
    obtain ⟨si, hsi, hsile⟩ := findSub_complete (text.drop pos) pat (p - pos) hocc'
    simp only [scanGo, hsi]
    by_cases hcase : p ≤ pos + si + pat.length
    · exact ⟨pos + si, List.mem_cons_self _ _, by omega, by omega⟩
    · push_neg at hcase
      have hb : pat.length ≤ (text.drop p).length := startsL_length_le _ _ hocc
      rw [List.length_drop] at hb
      have hguard : pos + si + pat.length < text.length := by omega
      rw [if_pos hguard]
      obtain ⟨q, hq, hq1, hq2⟩ := ih (pos + si + pat.length + 1) p (by omega) (by omega) hocc
      exact ⟨q, List.mem_cons_of_mem _ hq, hq1, hq2⟩

theorem findSub_of_starts (t pat : List Char) (h : startsL pat t = true) :
    findSub t pat = some 0 := by
  obtain ⟨i, hi, hle⟩ := findSub_complete t pat 0 (by simpa using h)
  have : i = 0 := Nat.le_zero.mp hle
  rwa [this] at hi

theorem parse_rst_isSome_of_starts (t name : List Char)
    (h : startsL (dirOpen name) t = true) : (parse_rst t name).isSome := by
  rw [parse_rst_isSome_iff, findSub_of_starts t (dirOpen name) h]
  rfl

theorem parse_rst_rel_one (t name : List Char) (d : RDirective) (rel : Nat)
    (hst : startsL (dirOpen name) t = true)
    (h : parse_rst t name = some (d, rel)) : rel = 1 := by
  simp only [parse_rst] at h
  rw [findSub_of_starts t (dirOpen name) hst] at h
  simp only [Option.some.injEq, Prod.mk.injEq] at h
  rw [← h.2]
  simp [linesCount, rustLines, splitNl]

theorem length_filterMap_of_isSome {α β : Type} (f : α → Option β) (l : List α)
    (h : ∀ a ∈ l, (f a).isSome) : (l.filterMap f).length = l.length := by
  induction l with
  | nil => simp
  | cons a r ih =>
    have ha := h a (List.mem_cons_self a r)
    obtain ⟨b, hb⟩ := Option.isSome_iff_exists.mp ha
    simp only [List.filterMap_cons, hb, List.length_cons]
    rw [ih (fun x hx => h x (List.mem_cons_of_mem a hx))]

theorem insertByPos_length (x : Nat × RDirective × Nat) (l : List (Nat × RDirective × Nat)) :
    (insertByPos x l).length = l.length + 1 := by
  induction l with
  | nil => rfl
  | cons y r ih =>
    simp only [insertByPos]
    split
    · simp
    · simp [ih]

theorem foldl_insertByPos_length (l : List (Nat × RDirective × Nat)) :
    ∀ acc : List (Nat × RDirective × Nat),
      (l.foldl (fun acc x => insertByPos x acc) acc).length = acc.length + l.length := by
  induction l with
  | nil => simp
  | cons x r ih =>
    intro acc
    simp only [List.foldl_cons]
    rw [ih (insertByPos x acc), insertByPos_length, List.length_cons]
    omega

theorem sortByPos_length (l : List (Nat × RDirective × Nat)) :
    (sortByPos l).length = l.length := by
  unfold sortByPos
  rw [foldl_insertByPos_length l []]
  simp

theorem mem_insertByPos (x y : Nat × RDirective × Nat) (l : List (Nat × RDirective × Nat))
    (h : y ∈ insertByPos x l) : y = x ∨ y ∈ l := by
  induction l with
  | nil => simp [insertByPos] at h; exact Or.inl h
  | cons z r ih =>
    simp only [insertByPos] at h
    split at h
    · rcases List.mem_cons.mp h with h | h
      · exact Or.inl h
      · exact Or.inr h
    · rcases List.mem_cons.mp h with h | h
      · exact Or.inr (by simp [h])
      · rcases ih h with h | h
        · exact Or.inl h
        · exact Or.inr (List.mem_cons_of_mem z h)

theorem pairwise_insertByPos (x : Nat × RDirective × Nat) (l : List (Nat × RDirective × Nat))
    (h : l.Pairwise (fun a b => a.1 ≤ b.1)) :
    (insertByPos x l).Pairwise (fun a b => a.1 ≤ b.1) := by
  induction l with
  | nil => simp [insertByPos]
  | cons y r ih =>
    rw [List.pairwise_cons] at h
    simp only [insertByPos]
    split
    · rw [List.pairwise_cons]
      constructor
      · intro z hz
        rcases List.mem_cons.mp hz with hz | hz
        · subst hz; omega
        · have := h.1 z hz; omega
      · rw [List.pairwise_cons]
        exact h
    · rw [List.pairwise_cons]
      constructor
      · intro z hz
        rcases mem_insertByPos x z r hz with hz | hz
        · subst hz; omega
        · exact h.1 z hz
      · exact ih h.2

theorem foldl_insertByPos_pairwise (l : List (Nat × RDirective × Nat)) :
    ∀ acc : List (Nat × RDirective × Nat),
      acc.Pairwise (fun a b => a.1 ≤ b.1) →
      (l.foldl (fun acc x => insertByPos x acc) acc).Pairwise (fun a b => a.1 ≤ b.1) := by
  induction l with
  | nil => intro acc h; simpa using h
  | cons x r ih =>
    intro acc hacc
    simp only [List.foldl_cons]
    exact ih (insertByPos x acc) (pairwise_insertByPos x acc hacc)

theorem sortByPos_pairwise (l : List (Nat × RDirective × Nat)) :
    (sortByPos l).Pairwise (fun a b => a.1 ≤ b.1) := by
  unfold sortByPos
  exact foldl_insertByPos_pairwise l [] (by simp)

theorem foldl_insertByPos_mem (l : List (Nat × RDirective × Nat))
    (y : Nat × RDirective × Nat) :
    ∀ acc : List (Nat × RDirective × Nat),
      y ∈ l.foldl (fun acc x => insertByPos x acc) acc → y ∈ l ∨ y ∈ acc := by
  induction l with
  | nil => intro acc h'; exact Or.inr (by simpa using h')
  | cons x r ih =>
    intro acc h'
    simp only [List.foldl_cons] at h'
    rcases ih (insertByPos x acc) h' with h'' | h''
    · exact Or.inl (List.mem_cons_of_mem x h'')
    · rcases mem_insertByPos x y acc h'' with h3 | h3
      · exact Or.inl (by simp [h3])
      · exact Or.inr h3

theorem mem_sortByPos (l : List (Nat × RDirective × Nat)) (y : Nat × RDirective × Nat)
    (h : y ∈ sortByPos l) : y ∈ l := by
  unfold sortByPos at h
  rcases foldl_insertByPos_mem l y [] h with h' | h'
  · exact h'
  · simp at h'

theorem mem_collectMatches (text : List Char) (targets : List (List Char))
    (x : Nat × RDirective × Nat) (h : x ∈ collectMatches text targets) :
    x.2.2 = linesCount (text.take x.1) + 1 := by
  unfold collectMatches at h
  rw [List.mem_flatten] at h
  obtain ⟨lpart, hlp, hx⟩ := h
  rw [List.mem_map] at hlp
  obtain ⟨name, hname, hpart⟩ := hlp
  subst hpart
  rw [List.mem_filterMap] at hx
  obtain ⟨abs, habs, hmap⟩ := hx
  cases hp : parse_rst (text.drop abs) name with
  | none => rw [hp] at hmap; simp at hmap
  | some dr =>
    rw [hp] at hmap
    simp only [Option.map_some', Option.some.injEq] at hmap
    have hst : startsL (dirOpen name) (text.drop abs) = true :=
      scanGo_sound text (dirOpen name) _ _ abs habs
    have hrel : dr.2 = 1 := parse_rst_rel_one _ _ dr.1 dr.2 hst (by rw [hp])
    rw [← hmap]
    simp [hrel]

/-! ## Claims C4 and C10 -/

/-- C4 amended: the outputs of parse_rst_multiple are sorted by the byte
position of their opening marker, and their line numbers are non-decreasing;
two successive outputs may share a line number (a directive found mid-line is
attributed to the following line), so the strict increase stated by the claim
does not hold in general. -/
theorem c4_line_numbers_amended (text : List Char) (targets : List (List Char)) :
    List.Chain' (· ≤ ·) ((parse_rst_multiple text targets).map Prod.snd) := by
  unfold parse_rst_multiple
  rw [List.map_map]
  have hpw := sortByPos_pairwise (collectMatches text targets)
  have hln : (sortByPos (collectMatches text targets)).Pairwise
      (fun a b => (a.2.2 : Nat) ≤ b.2.2) := by
    refine List.Pairwise.imp_of_mem ?_ hpw
    intro a b ha hb hab
    have ha' := mem_collectMatches text targets a (mem_sortByPos _ a ha)
    have hb' := mem_collectMatches text targets b (mem_sortByPos _ b hb)
    rw [ha', hb']
    have := linesCount_take_mono text a.1 b.1 hab
    omega
  have : ((sortByPos (collectMatches text targets)).map
      (fun t => (Prod.snd ∘ fun t => (t.2.1, t.2.2)) t)).Pairwise (· ≤ ·) := by
    rw [List.pairwise_map]
    exact hln
  exact this.chain'

/-- C4 counterexample: on the input "x .. a::\n.. b::" with targets a and b
the two outputs both carry line number 2 (the first opening sits mid-line on
line 1 and is attributed to line 2), so line numbers are not strictly
increasing. -/
theorem c4_counterexample :
    ((parse_rst_multiple "x .. a::\n.. b::".toList ["a".toList, "b".toList]).map Prod.snd
        = [2, 2]) ∧
    ¬ List.Chain' (· < ·)
        ((parse_rst_multiple "x .. a::\n.. b::".toList ["a".toList, "b".toList]).map
          Prod.snd) := by
  constructor
  · rfl
  · intro h
    rw [show ((parse_rst_multiple "x .. a::\n.. b::".toList ["a".toList, "b".toList]).map
        Prod.snd) = [2, 2] from rfl] at h
    simp [List.chain'_cons] at h

/-- C10 amended: the parser recognises '.. name::' by plain substring search
at any position (every scanned position carries a genuine occurrence of the
marker, at any indentation, mid-line or inside another body), and every
scanned position yields its own output record; however the cursor resumes one
character past the matched marker, so an occurrence is only guaranteed to be
found up to that skip: every occurrence lies within marker length of some
scanned position, but an occurrence starting within the skip window of a
previous match produces no record of its own. -/
theorem c10_substring_scan_amended (text name : List Char) :
    (∀ p ∈ scanPositions text (dirOpen name), startsL (dirOpen name) (text.drop p) = true) ∧
    (∀ p, startsL (dirOpen name) (text.drop p) = true →
        ∃ q ∈ scanPositions text (dirOpen name), q ≤ p ∧ p ≤ q + (dirOpen name).length) ∧
    (parse_rst_multiple text [name]).length = (scanPositions text (dirOpen name)).length := by
  refine ⟨?_, ?_, ?_⟩
  · exact fun p hp => scanGo_sound text (dirOpen name) _ _ p hp
  · intro p hocc
    exact scanGo_coverage text (dirOpen name) (dirOpen_ne_nil name) _ 0 p (by omega)
      (Nat.zero_le p) hocc
  · unfold parse_rst_multiple collectMatches
    rw [List.length_map, sortByPos_length]
    simp only [List.map_cons, List.map_nil, List.flatten_cons, List.flatten_nil,
      List.append_nil]
    rw [length_filterMap_of_isSome]
    intro abs habs
    have hst : startsL (dirOpen name) (text.drop abs) = true :=
      scanGo_sound text (dirOpen name) _ _ abs habs
    have := parse_rst_isSome_of_starts _ _ hst
    rw [Option.isSome_map']
    exact this

/-- C10 counterexample: in ".. a::.. a::" the marker ".. a::" occurs at
positions 0 and 6, yet the scan yields a single record: the occurrence
beginning immediately after the first match's marker is skipped, refuting
"every such occurrence yields its own output record". -/
theorem c10_counterexample :
    (parse_rst_multiple ".. a::.. a::".toList ["a".toList]).length = 1 ∧
    startsL (dirOpen "a".toList) (".. a::.. a::".toList.drop 0) = true ∧
    startsL (dirOpen "a".toList) (".. a::.. a::".toList.drop 6) = true :=
  ⟨rfl, rfl, rfl⟩


/-- C10 amended witness: the marker for name "a" occurring mid-line at
position 2 of "x .. a:: y" is covered by a scanned position, and the number
of output records equals the number of scanned positions. -/
theorem c10_substring_scan_amended_witness :
    startsL (dirOpen "a".toList) ("x .. a:: y".toList.drop 2) = true ∧
    (∃ q ∈ scanPositions "x .. a:: y".toList (dirOpen "a".toList),
        q ≤ 2 ∧ 2 ≤ q + (dirOpen "a".toList).length) ∧
    (parse_rst_multiple "x .. a:: y".toList ["a".toList]).length
      = (scanPositions "x .. a:: y".toList (dirOpen "a".toList)).length :=
  ⟨by decide,
   (c10_substring_scan_amended "x .. a:: y".toList "a".toList).2.1 2 (by decide),
   (c10_substring_scan_amended "x .. a:: y".toList "a".toList).2.2⟩

/-! ## Claim C2 -/

/-- C2 counterexample: in ".. d::" followed by option line "   :a: x" and the
more-indented option-shaped line "      :b: y", the parser does not produce
an option "b"; the line is appended to the value of "a", refuting the claim
that a more-indented line of option shape is parsed as a new option. -/
theorem c2_counterexample :
    (parse_rst ".. d::\n   :a: x\n      :b: y".toList "d".toList).map
        (fun dr => (lookupA dr.1.options "b".toList, lookupA dr.1.options "a".toList))
      = some (none, some "x\n:b: y".toList) := rfl

/-- C2 amended: during the options phase, any non-blank line immediately
following an option line that is more indented than the option line's own
indentation is accumulated into that option's multi-line value, with no
exception for lines that look like a new option: on an option line ":a: x"
at indentation 3 followed by one such line, the option map has exactly the
key "a" with the following line's trimmed text joined into the value. -/
theorem c2_option_continuation_amended (l : List Char) (hne : trimL l ≠ [])
    (hind : indentOf l > 3) :
    parseBody (some 3) ["   :a: x".toList, l] =
      ([("a".toList, "x".toList ++ '\n' :: trimL l)], []) := by
  have hc : collectCont 3 [l] = ([trimL l], []) := by
    simp only [collectCont]
    rw [if_pos ⟨hne, hind⟩]
  have e2 : indentOf "   :a: x".toList = 3 := rfl
  have e3 : startsL [':'] (trimL "   :a: x".toList) = true := rfl
  have e4 : splitn2Colon (List.drop 1 (trimL "   :a: x".toList)) =
      some ("a".toList, " x".toList) := rfl
  have e5 : trimL "a".toList = "a".toList := rfl
  have e6 : trimStartL " x".toList = "x".toList := rfl
  unfold parseBody
  simp only [List.length_cons, List.length_nil, parseBodyGo, e2, e3, e4, hc, e5, e6,
    if_true, List.head!_cons, List.length_nil]
  rw [if_neg (by simp)]
  simp [List.intercalate]

/-- C2 amended witness: the more-indented option-shaped line "      :b: y"
(indentation 6 > 3, non-blank) is absorbed into the value of option "a". -/
theorem c2_option_continuation_amended_witness :
    trimL "      :b: y".toList ≠ [] ∧ indentOf "      :b: y".toList > 3 ∧
    parseBody (some 3) ["   :a: x".toList, "      :b: y".toList] =
      ([("a".toList, "x\n:b: y".toList)], []) :=
  ⟨by decide, by decide,
   (c2_option_continuation_amended "      :b: y".toList (by decide) (by decide)).trans rfl⟩

/-! ## Claim C8 -/

theorem emitFold_keys (inc : List (String × List String)) :
    ∀ (opts : List (String × String)) (k : String), k ∈ keysA opts →
      k ∈ keysA (inc.foldl
        (fun acc kv =>
          if kv.2 ≠ [] then insertA acc kv.1 (String.intercalate "," kv.2) else acc)
        opts) := by
  induction inc with
  | nil => intro opts k h; simpa using h
  | cons kv rest ih =>
    intro opts k h
    simp only [List.foldl_cons]
    split
    · exact ih _ k (keysA_insertA_superset opts kv.1 _ k h)
    · exact ih _ k h

theorem emitFold_lookup_of_not_mem (inc : List (String × List String)) :
    ∀ (opts : List (String × String)) (k : String), k ∉ keysA inc →
      lookupA (inc.foldl
        (fun acc kv =>
          if kv.2 ≠ [] then insertA acc kv.1 (String.intercalate "," kv.2) else acc)
        opts) k = lookupA opts k := by
  induction inc with
  | nil => intro opts k _; rfl
  | cons kv rest ih =>
    intro opts k h
    rw [keysA_cons, List.mem_cons] at h
    push_neg at h
    simp only [List.foldl_cons]
    split
    · rw [ih _ k h.2, lookupA_insertA_ne _ _ _ _ h.1]
    · exact ih _ k h.2

theorem emitFold_lookup_mem (inc : List (String × List String)) :
    ∀ (opts : List (String × String)) (bk : String) (srcs : List String),
      (keysA inc).Nodup → (bk, srcs) ∈ inc → srcs ≠ [] →
      lookupA (inc.foldl
        (fun acc kv =>
          if kv.2 ≠ [] then insertA acc kv.1 (String.intercalate "," kv.2) else acc)
        opts) bk = some (String.intercalate "," srcs) := by
  induction inc with
  | nil => intro opts bk srcs _ h; simp at h
  | cons kv rest ih =>
    intro opts bk srcs hnd hmem hne
    rw [keysA_cons, List.nodup_cons] at hnd
    simp only [List.foldl_cons]
    rcases List.mem_cons.mp hmem with hm | hm
    · have hkv : kv = (bk, srcs) := hm.symm
      subst hkv
      rw [if_pos (by simpa using hne)]
      have hnotin : bk ∉ keysA rest := by simpa using hnd.1
      rw [emitFold_lookup_of_not_mem rest _ bk hnotin, lookupA_insertA_self]
    · split <;> exact ih _ bk srcs hnd.2 hm hne

theorem emitFold_not_key (inc : List (String × List String)) :
    ∀ (opts : List (String × String)) (bk : String), bk ∉ keysA opts →
      (∀ srcs, (bk, srcs) ∈ inc → srcs = []) →
      bk ∉ keysA (inc.foldl
        (fun acc kv =>
          if kv.2 ≠ [] then insertA acc kv.1 (String.intercalate "," kv.2) else acc)
        opts) := by
  induction inc with
  | nil => intro opts bk h _; simpa using h
  | cons kv rest ih =>
    intro opts bk h hall
    simp only [List.foldl_cons]
    split
    · have hkbk : kv.1 ≠ bk := by
        intro hkb
        have : kv.2 = [] := hall kv.2 (by rw [← hkb]; exact List.mem_cons_self kv rest)
        simp_all
      refine ih _ bk ?_ (fun srcs hs => hall srcs (List.mem_cons_of_mem kv hs))
      intro hmem
      rcases mem_keysA_insertA opts kv.1 _ bk hmem with h' | h'
      · exact hkbk h'.symm
      · exact h h'
    · exact ih _ bk h (fun srcs hs => hall srcs (List.mem_cons_of_mem kv hs))

/-- C8: for every directive in the store, the emitted record's options map
keeps every original option key and additionally maps each backlink key whose
incoming-link list in the graph is non-empty to the comma-joined source ids;
backlink keys whose incoming lists are empty (or absent) are not added, and a
directive with no graph node keeps exactly its original options. -/
theorem c8_emitted_options (g : LinkGraph) (id : String) (opts : List (String × String)) :
    (lookupA g id = none → emitOptions g id opts = opts) ∧
    (∀ nd, lookupA g id = some nd →
      (∀ k ∈ keysA opts, k ∈ keysA (emitOptions g id opts)) ∧
      ((keysA nd.incoming_links).Nodup →
        ∀ bk srcs, (bk, srcs) ∈ nd.incoming_links → srcs ≠ [] →
          lookupA (emitOptions g id opts) bk = some (String.intercalate "," srcs)) ∧
      (∀ bk, bk ∉ keysA opts → (∀ srcs, (bk, srcs) ∈ nd.incoming_links → srcs = []) →
          bk ∉ keysA (emitOptions g id opts))) := by
  constructor
  · intro h
    unfold emitOptions
    rw [h]
  · intro nd h
    unfold emitOptions
    rw [h]
    refine ⟨?_, ?_, ?_⟩
    · exact fun k hk => emitFold_keys nd.incoming_links opts k hk
    · exact fun hnd bk srcs hmem hne =>
        emitFold_lookup_mem nd.incoming_links opts bk srcs hnd hmem hne
    · exact fun bk hk hall => emitFold_not_key nd.incoming_links opts bk hk hall

/-- C8 witness: with node d2 carrying incoming links_to_back = [d1] and an
empty e_back list, the emitted options for d2 contain the original key "o",
map links_to_back to "d1", and do not contain e_back. -/
theorem c8_emitted_options_witness :
    lookupA
        (emitOptions [("d2", ⟨[], [("links_to_back", ["d1"]), ("e_back", [])]⟩)] "d2"
          [("o", "v")]) "links_to_back" = some "d1" ∧
    "o" ∈ keysA
        (emitOptions [("d2", ⟨[], [("links_to_back", ["d1"]), ("e_back", [])]⟩)] "d2"
          [("o", "v")]) ∧
    "e_back" ∉ keysA
        (emitOptions [("d2", ⟨[], [("links_to_back", ["d1"]), ("e_back", [])]⟩)] "d2"
          [("o", "v")]) :=
  ⟨(((c8_emitted_options [("d2", ⟨[], [("links_to_back", ["d1"]), ("e_back", [])]⟩)] "d2"
        [("o", "v")]).2 ⟨[], [("links_to_back", ["d1"]), ("e_back", [])]⟩ rfl).2.1
      (by decide) "links_to_back" ["d1"] (by decide) (by decide)).trans rfl,
   ((c8_emitted_options [("d2", ⟨[], [("links_to_back", ["d1"]), ("e_back", [])]⟩)] "d2"
        [("o", "v")]).2 ⟨[], [("links_to_back", ["d1"]), ("e_back", [])]⟩ rfl).1 "o"
      (by decide),
   (((c8_emitted_options [("d2", ⟨[], [("links_to_back", ["d1"]), ("e_back", [])]⟩)] "d2"
        [("o", "v")]).2 ⟨[], [("links_to_back", ["d1"]), ("e_back", [])]⟩ rfl).2.2 "e_back"
      (by decide)
      (by
        intro srcs hs
        simp at hs
        exact hs))⟩

/-! ## Link graph primitive lemmas -/

theorem lookupA_append_of_some {α β : Type} [DecidableEq α] (g g' : List (α × β)) (d : α) (nd : β)
    (h : lookupA g d = some nd) : lookupA (g ++ g') d = some nd := by
  induction g with
  | nil => simp at h
  | cons kv r ih =>
    obtain ⟨k, v⟩ := kv
    by_cases hk : k = d
    · simp [hk] at h ⊢; exact h
    · rw [lookupA_cons, if_neg hk] at h
      rw [List.cons_append, lookupA_cons, if_neg hk]
      exact ih h

theorem lookupA_append_of_none {α β : Type} [DecidableEq α] (g g' : List (α × β)) (d : α)
    (h : lookupA g d = none) : lookupA (g ++ g') d = lookupA g' d := by
  induction g with
  | nil => simp
  | cons kv r ih =>
    obtain ⟨k, v⟩ := kv
    by_cases hk : k = d
    · simp [hk] at h
    · rw [lookupA_cons, if_neg hk] at h
      rw [List.cons_append, lookupA_cons, if_neg hk]
      exact ih h

theorem entryOrDefault_lookup_of_some (g : LinkGraph) (k d : String) (nd : LinkNodeData)
    (h : lookupA g d = some nd) : lookupA (entryOrDefault g k) d = some nd := by
  unfold entryOrDefault
  split
  · exact h
  · exact lookupA_append_of_some g _ d nd h

theorem entryOrDefault_lookup (g : LinkGraph) (k d : String) :
    lookupA (entryOrDefault g k) d = lookupA g d ∨
      (d = k ∧ lookupA g d = none ∧ lookupA (entryOrDefault g k) d = some defaultNode) := by
  unfold entryOrDefault
  split
  · exact Or.inl rfl
  · rename_i hnone
    by_cases hd : d = k
    · subst hd
      rw [Option.not_isSome_iff_eq_none] at hnone
      refine Or.inr ⟨rfl, hnone, ?_⟩
      rw [lookupA_append_of_none g _ d hnone]
      simp
    · left
      cases hl : lookupA g d with
      | some nd => exact lookupA_append_of_some g _ d nd hl
      | none =>
        rw [lookupA_append_of_none g _ d hl]
        simp [Ne.symm hd]

theorem modifyG_cons (kv : String × LinkNodeData) (r : LinkGraph) (k : String)
    (f : LinkNodeData → LinkNodeData) :
    modifyG (kv :: r) k f =
      if kv.1 = k then (kv.1, f kv.2) :: r else kv :: modifyG r k f := rfl

theorem modifyG_lookup_ne (g : LinkGraph) (k d : String) (f : LinkNodeData → LinkNodeData)
    (h : d ≠ k) : lookupA (modifyG g k f) d = lookupA g d := by
  induction g with
  | nil => rfl
  | cons kv r ih =>
    obtain ⟨k', v⟩ := kv
    rw [modifyG_cons]
    by_cases hk : k' = k
    · rw [if_pos hk]
      rw [lookupA_cons, lookupA_cons]
      have hkd : ¬k' = d := by
        intro hh
        exact h (hh ▸ hk ▸ rfl)
      rw [if_neg hkd, if_neg hkd]
    · rw [if_neg hk, lookupA_cons, lookupA_cons]
      by_cases hd : k' = d
      · rw [if_pos hd, if_pos hd]
      · rw [if_neg hd, if_neg hd]
        exact ih

theorem modifyG_lookup_self (g : LinkGraph) (k : String) (f : LinkNodeData → LinkNodeData) :
    lookupA (modifyG g k f) k = (lookupA g k).map f := by
  induction g with
  | nil => rfl
  | cons kv r ih =>
    obtain ⟨k', v⟩ := kv
    rw [modifyG_cons]
    by_cases hk : k' = k
    · rw [if_pos hk, lookupA_cons, lookupA_cons, if_pos hk, if_pos hk]
      rfl
    · rw [if_neg hk, lookupA_cons, lookupA_cons, if_neg hk, if_neg hk]
      exact ih

theorem foldl_preserves {α σ : Type} (P : σ → Prop) (step : σ → α → σ) (l : List α)
    (hstep : ∀ s x, x ∈ l → P s → P (step s x)) : ∀ s, P s → P (l.foldl step s) := by
  induction l with
  | nil => intro s h; exact h
  | cons x r ih =>
    intro s h
    simp only [List.foldl_cons]
    exact ih (fun s y hy => hstep s y (List.mem_cons_of_mem x hy))
      (step s x) (hstep s x (List.mem_cons_self x r) h)

theorem foldl_establishes {α σ : Type} (P : σ → Prop) (step : σ → α → σ) (l : List α)
    (x : α) (hx : x ∈ l) (hest : ∀ s, P (step s x))
    (hpres : ∀ s y, y ∈ l → P s → P (step s y)) : ∀ s, P (l.foldl step s) := by
  induction l with
  | nil => simp at hx
  | cons y r ih =>
    intro s
    simp only [List.foldl_cons]
    rcases List.mem_cons.mp hx with hxy | hxr
    · subst hxy
      exact foldl_preserves P step r
        (fun s z hz => hpres s z (List.mem_cons_of_mem x hz)) (step s x) (hest s)
    · exact ih hxr (fun s z hz => hpres s z (List.mem_cons_of_mem y hz)) (step s y)

/-! ## C1 and C6: the link-graph build, self-edges and dangling targets -/


/-- Pass 1 never modifies an existing node. -/
theorem backlinkPass1_lookup_of_some (cfg : List String) (id : String)
    (opts : List (String × String)) (g : LinkGraph) (d : String) (nd : LinkNodeData)
    (h : lookupA g d = some nd) :
    lookupA (backlinkPass1 cfg id opts g).2 d = some nd := by
  unfold backlinkPass1
  refine foldl_preserves (fun acc : List (String × List String) × LinkGraph => lookupA acc.2 d = some nd) _ cfg ?_ ([], g) h
  intro acc field _ hacc
  dsimp only
  cases lookupA opts field with
  | none => exact hacc
  | some v =>
    dsimp only
    split
    · exact hacc
    · split
      · exact hacc
      · dsimp only
        refine foldl_preserves (fun g2 : LinkGraph => lookupA g2 d = some nd) _ _ ?_ _
          (entryOrDefault_lookup_of_some acc.2 id d nd hacc)
        intro g2 x _ hg2
        dsimp only
        split
        · exact entryOrDefault_lookup_of_some g2 x d nd hg2
        · exact hg2

/-- Pass 1 leaves an absent node absent or creates it as the default node. -/
theorem backlinkPass1_lookup_of_none (cfg : List String) (id : String)
    (opts : List (String × String)) (g : LinkGraph) (d : String)
    (h : lookupA g d = none) :
    lookupA (backlinkPass1 cfg id opts g).2 d = none ∨
      lookupA (backlinkPass1 cfg id opts g).2 d = some defaultNode := by
  unfold backlinkPass1
  refine foldl_preserves
    (fun acc : List (String × List String) × LinkGraph =>
      lookupA acc.2 d = none ∨ lookupA acc.2 d = some defaultNode) _ cfg ?_
    ([], g) (Or.inl h)
  intro acc field _ hacc
  dsimp only
  cases lookupA opts field with
  | none => exact hacc
  | some v =>
    dsimp only
    split
    · exact hacc
    · split
      · exact hacc
      · dsimp only
        have hstep : ∀ (g2 : LinkGraph) (k : String),
            (lookupA g2 d = none ∨ lookupA g2 d = some defaultNode) →
            (lookupA (entryOrDefault g2 k) d = none ∨
              lookupA (entryOrDefault g2 k) d = some defaultNode) := by
          intro g2 k hg2
          rcases hg2 with hg2 | hg2
          · rcases entryOrDefault_lookup g2 k d with h' | ⟨-, -, h'⟩
            · rw [h']; exact Or.inl hg2
            · exact Or.inr h'
          · exact Or.inr (entryOrDefault_lookup_of_some g2 k d _ hg2)
        refine foldl_preserves
          (fun g2 : LinkGraph => lookupA g2 d = none ∨ lookupA g2 d = some defaultNode) _ _ ?_ _
          (hstep acc.2 id hacc)
        intro g2 x _ hg2
        dsimp only
        split
        · exact hstep g2 x hg2
        · exact hg2

theorem splitTargets_empty : splitTargets "" = [] := rfl

theorem entryOrDefault_self_isSome (g : LinkGraph) (k : String) :
    (lookupA (entryOrDefault g k) k).isSome := by
  unfold entryOrDefault
  split
  · assumption
  · rename_i hnone
    rw [Option.not_isSome_iff_eq_none] at hnone
    rw [lookupA_append_of_none g _ k hnone]
    simp

theorem entryOrDefault_isSome_mono (g : LinkGraph) (k x : String)
    (hx : (lookupA g x).isSome) : (lookupA (entryOrDefault g k) x).isSome := by
  obtain ⟨nd, hnd⟩ := Option.isSome_iff_exists.mp hx
  rw [entryOrDefault_lookup_of_some g k x nd hnd]
  rfl

/-- Pass 1 collects the (field, targets) pair of every configured link field
whose option value yields a non-empty target list, and ensures the source and
target nodes exist. -/
theorem backlinkPass1_collects (cfg : List String) (id : String)
    (opts : List (String × String)) (g : LinkGraph) (field v : String)
    (hf : field ∈ cfg) (hv : lookupA opts field = some v)
    (hne : splitTargets v ≠ []) :
    (field, splitTargets v) ∈ (backlinkPass1 cfg id opts g).1 ∧
    (lookupA (backlinkPass1 cfg id opts g).2 id).isSome ∧
    (∀ t ∈ splitTargets v, t ≠ id → (lookupA (backlinkPass1 cfg id opts g).2 t).isSome) := by
  have hvne : v ≠ "" := by
    intro hv0
    rw [hv0, splitTargets_empty] at hne
    exact hne rfl
  have hinner : ∀ (l : List String) (g2 : LinkGraph) (x : String),
      (lookupA g2 x).isSome →
      (lookupA (l.foldl (fun g t => if t ≠ id then entryOrDefault g t else g) g2) x).isSome := by
    intro l g2 x hx
    refine foldl_preserves (fun g3 : LinkGraph => (lookupA g3 x).isSome) _ l ?_ g2 hx
    intro g3 y _ hg3
    dsimp only
    split
    · exact entryOrDefault_isSome_mono g3 y x hg3
    · exact hg3
  unfold backlinkPass1
  refine foldl_establishes
    (fun acc : List (String × List String) × LinkGraph =>
      (field, splitTargets v) ∈ acc.1 ∧ (lookupA acc.2 id).isSome ∧
      (∀ t ∈ splitTargets v, t ≠ id → (lookupA acc.2 t).isSome)) _ cfg field hf ?_ ?_ ([], g)
  · intro acc
    dsimp only
    rw [hv]
    dsimp only
    rw [if_neg hvne, if_neg hne]
    dsimp only
    refine ⟨List.mem_append_right _ (by simp), ?_, ?_⟩
    · exact hinner (splitTargets v) (entryOrDefault acc.2 id) id
        (entryOrDefault_self_isSome acc.2 id)
    · intro t ht htne
      refine foldl_establishes (fun g3 : LinkGraph => (lookupA g3 t).isSome) _
        (splitTargets v) t ht ?_ ?_ (entryOrDefault acc.2 id)
      · intro g3
        dsimp only
        rw [if_pos htne]
        exact entryOrDefault_self_isSome g3 t
      · intro g3 y _ hg3
        dsimp only
        split
        · exact entryOrDefault_isSome_mono g3 y t hg3
        · exact hg3
  · intro acc field2 _ hacc
    obtain ⟨h1, h2, h3⟩ := hacc
    dsimp only
    cases lookupA opts field2 with
    | none => exact ⟨h1, h2, h3⟩
    | some v2 =>
      dsimp only
      split
      · exact ⟨h1, h2, h3⟩
      · split
        · exact ⟨h1, h2, h3⟩
        · dsimp only
          refine ⟨List.mem_append_left _ h1, ?_, ?_⟩
          · exact hinner (splitTargets v2) (entryOrDefault acc.2 id) id
              (entryOrDefault_isSome_mono acc.2 id id h2)
          · intro t ht htne
            exact hinner (splitTargets v2) (entryOrDefault acc.2 id) t
              (entryOrDefault_isSome_mono acc.2 id t (h3 t ht htne))

theorem foldl_establishes_inv {α σ : Type} (Inv P : σ → Prop) (step : σ → α → σ)
    (l : List α) (x : α) (hx : x ∈ l)
    (hest : ∀ s, Inv s → P (step s x))
    (hinv : ∀ s y, y ∈ l → Inv s → Inv (step s y))
    (hpres : ∀ s y, y ∈ l → P s → P (step s y)) :
    ∀ s, Inv s → P (l.foldl step s) := by
  induction l with
  | nil => simp at hx
  | cons y r ih =>
    intro s hs
    simp only [List.foldl_cons]
    rcases List.mem_cons.mp hx with hxy | hxr
    · subst hxy
      exact foldl_preserves P step r
        (fun s z hz => hpres s z (List.mem_cons_of_mem x hz)) (step s x) (hest s hs)
    · exact ih hxr (fun s z hz => hinv s z (List.mem_cons_of_mem y hz))
        (fun s z hz => hpres s z (List.mem_cons_of_mem y hz)) (step s y)
        (hinv s y (List.mem_cons_self y r) hs)

/-- How one backlink application may change a node other than the source:
outgoing untouched, incoming lists only grow, and every new incoming entry is
the source id. -/
def nodeEvolve (id : String) (nd nd' : LinkNodeData) : Prop :=
  nd'.outgoing_links = nd.outgoing_links ∧
  (∀ f s, s ∈ (lookupA nd.incoming_links f).getD [] →
    s ∈ (lookupA nd'.incoming_links f).getD []) ∧
  (∀ f s, s ∈ (lookupA nd'.incoming_links f).getD [] →
    s ∈ (lookupA nd.incoming_links f).getD [] ∨ s = id)

theorem nodeEvolve_refl (id : String) (nd : LinkNodeData) : nodeEvolve id nd nd :=
  ⟨rfl, fun _ _ h => h, fun _ _ h => Or.inl h⟩

theorem nodeEvolve_trans (id : String) (nd1 nd2 nd3 : LinkNodeData)
    (h12 : nodeEvolve id nd1 nd2) (h23 : nodeEvolve id nd2 nd3) : nodeEvolve id nd1 nd3 := by
  refine ⟨h23.1.trans h12.1, fun f s hs => h23.2.1 f s (h12.2.1 f s hs), fun f s hs => ?_⟩
  rcases h23.2.2 f s hs with h | h
  · exact h12.2.2 f s h
  · exact Or.inr h

theorem incomingPush_evolve (id fb : String) (nd : LinkNodeData) :
    nodeEvolve id nd
      (LinkNodeData.mk nd.outgoing_links
        (insertA nd.incoming_links fb
          (if id ∈ (lookupA nd.incoming_links fb).getD [] then
            (lookupA nd.incoming_links fb).getD []
           else (lookupA nd.incoming_links fb).getD [] ++ [id]))) := by
  unfold nodeEvolve
  refine ⟨rfl, ?_, ?_⟩
  · intro f s hs
    dsimp only
    by_cases hf : f = fb
    · subst hf
      rw [lookupA_insertA_self]
      simp only [Option.getD_some]
      split
      · exact hs
      · exact List.mem_append_left _ hs
    · rw [lookupA_insertA_ne _ _ _ _ hf]
      exact hs
  · intro f s hs
    dsimp only at hs
    by_cases hf : f = fb
    · subst hf
      rw [lookupA_insertA_self] at hs
      simp only [Option.getD_some] at hs
      split at hs
      · exact Or.inl hs
      · rcases List.mem_append.mp hs with h | h
        · exact Or.inl h
        · simp at h
          exact Or.inr h
    · rw [lookupA_insertA_ne _ _ _ _ hf] at hs
      exact Or.inl hs

theorem incomingPush_lookup (g : LinkGraph) (t id fb : String) (nd : LinkNodeData)
    (hnd : lookupA g t = some nd) :
    lookupA
      (modifyG g t (fun nd =>
        LinkNodeData.mk nd.outgoing_links
          (insertA nd.incoming_links fb
            (if id ∈ (lookupA nd.incoming_links fb).getD [] then
              (lookupA nd.incoming_links fb).getD []
             else (lookupA nd.incoming_links fb).getD [] ++ [id])))) t =
    some (LinkNodeData.mk nd.outgoing_links
      (insertA nd.incoming_links fb
        (if id ∈ (lookupA nd.incoming_links fb).getD [] then
          (lookupA nd.incoming_links fb).getD []
         else (lookupA nd.incoming_links fb).getD [] ++ [id]))) := by
  rw [modifyG_lookup_self, hnd, Option.map_some']

/-- Pass 3's incoming update on the targets: every node either stays absent or
evolves (incoming grows by at most the source id). -/
theorem backlinkPass3Targets_lookup (id field : String) (tids : List String)
    (g : LinkGraph) (d : String) :
    (∀ nd, lookupA g d = some nd →
      ∃ nd', lookupA (backlinkPass3Targets id field tids g).1 d = some nd' ∧
        nodeEvolve id nd nd') ∧
    (lookupA g d = none → lookupA (backlinkPass3Targets id field tids g).1 d = none) := by
  unfold backlinkPass3Targets
  refine foldl_preserves
    (fun acc : LinkGraph × List (String × String) =>
      (∀ nd, lookupA g d = some nd →
        ∃ nd', lookupA acc.1 d = some nd' ∧ nodeEvolve id nd nd') ∧
      (lookupA g d = none → lookupA acc.1 d = none)) _ tids ?_ (g, [])
    ⟨fun nd hnd => ⟨nd, hnd, nodeEvolve_refl id nd⟩, fun h => h⟩
  intro acc t _ hacc
  dsimp only
  split
  · exact hacc
  · constructor
    · intro nd hnd
      obtain ⟨nd', hnd', hev⟩ := hacc.1 nd hnd
      by_cases hdt : d = t
      · subst hdt
        rw [incomingPush_lookup acc.1 d id (field ++ "_back") nd' hnd']
        exact ⟨_, rfl, nodeEvolve_trans id nd nd' _ hev
          (incomingPush_evolve id (field ++ "_back") nd')⟩
      · rw [modifyG_lookup_ne _ _ _ _ hdt]
        exact ⟨nd', hnd', hev⟩
    · intro hn
      have hid := hacc.2 hn
      by_cases hdt : d = t
      · subst hdt
        rw [modifyG_lookup_self, hid]
        rfl
      · rw [modifyG_lookup_ne _ _ _ _ hdt]
        exact hid

/-- Pass 3's incoming update never touches the source's own node. -/
theorem backlinkPass3Targets_lookup_source (id field : String) (tids : List String)
    (g : LinkGraph) :
    lookupA (backlinkPass3Targets id field tids g).1 id = lookupA g id := by
  unfold backlinkPass3Targets
  refine foldl_preserves
    (fun acc : LinkGraph × List (String × String) => lookupA acc.1 id = lookupA g id)
    _ tids ?_ (g, []) rfl
  intro acc t _ hacc
  dsimp only
  split
  · exact hacc
  · rename_i hne
    rw [modifyG_lookup_ne _ _ _ _ (fun h => hne h.symm)]
    exact hacc

/-- Pass 3's incoming update records the source on an existing target of the
processed field, keeping the target's outgoing links unchanged. -/
theorem backlinkPass3Targets_establish (id field : String) (tids : List String)
    (g : LinkGraph) (t : String) (ht : t ∈ tids) (hne : t ≠ id) (nd : LinkNodeData)
    (hnd : lookupA g t = some nd) :
    ∃ nd', lookupA (backlinkPass3Targets id field tids g).1 t = some nd' ∧
      nd'.outgoing_links = nd.outgoing_links ∧
      id ∈ (lookupA nd'.incoming_links (field ++ "_back")).getD [] := by
  unfold backlinkPass3Targets
  refine foldl_establishes_inv
    (fun acc : LinkGraph × List (String × String) =>
      ∃ ndx, lookupA acc.1 t = some ndx ∧ ndx.outgoing_links = nd.outgoing_links)
    (fun acc : LinkGraph × List (String × String) =>
      ∃ nd', lookupA acc.1 t = some nd' ∧ nd'.outgoing_links = nd.outgoing_links ∧
        id ∈ (lookupA nd'.incoming_links (field ++ "_back")).getD [])
    _ tids t ht ?_ ?_ ?_ (g, []) ⟨nd, hnd, rfl⟩
  · intro acc hInv
    obtain ⟨ndx, hndx, hout⟩ := hInv
    dsimp only
    rw [if_neg hne]
    dsimp only
    rw [incomingPush_lookup acc.1 t id (field ++ "_back") ndx hndx]
    refine ⟨_, rfl, hout, ?_⟩
    dsimp only
    rw [lookupA_insertA_self]
    simp only [Option.getD_some]
    split
    · assumption
    · exact List.mem_append_right _ (by simp)
  · intro acc y _ hInv
    obtain ⟨ndx, hndx, hout⟩ := hInv
    dsimp only
    split
    · exact ⟨ndx, hndx, hout⟩
    · by_cases hty : t = y
      · subst hty
        rw [incomingPush_lookup acc.1 t id (field ++ "_back") ndx hndx]
        exact ⟨_, rfl, hout⟩
      · rw [modifyG_lookup_ne _ _ _ _ hty]
        exact ⟨ndx, hndx, hout⟩
  · intro acc y _ hP
    obtain ⟨nd', hnd', hout, hmem⟩ := hP
    dsimp only
    split
    · exact ⟨nd', hnd', hout, hmem⟩
    · by_cases hty : t = y
      · subst hty
        rw [incomingPush_lookup acc.1 t id (field ++ "_back") nd' hnd']
        exact ⟨_, rfl, hout,
          (incomingPush_evolve id (field ++ "_back") nd').2.1 _ id hmem⟩
      · rw [modifyG_lookup_ne _ _ _ _ hty]
        exact ⟨nd', hnd', hout, hmem⟩

/-- Pass 3 for a node other than the source: it either stays absent or
evolves. -/
theorem backlinkPass3_lookup_ne (id : String) (ltp : List (String × List String))
    (g : LinkGraph) (d : String) (hd : d ≠ id) :
    (∀ nd, lookupA g d = some nd →
      ∃ nd', lookupA (backlinkPass3 id ltp g).1 d = some nd' ∧ nodeEvolve id nd nd') ∧
    (lookupA g d = none → lookupA (backlinkPass3 id ltp g).1 d = none) := by
  unfold backlinkPass3
  refine foldl_preserves
    (fun acc : LinkGraph × List (String × String) =>
      (∀ nd, lookupA g d = some nd →
        ∃ nd', lookupA acc.1 d = some nd' ∧ nodeEvolve id nd nd') ∧
      (lookupA g d = none → lookupA acc.1 d = none)) _ ltp ?_ (g, [])
    ⟨fun nd hnd => ⟨nd, hnd, nodeEvolve_refl id nd⟩, fun h => h⟩
  intro acc fv _ hacc
  dsimp only
  have hg1 : lookupA (modifyG acc.1 id (fun nd =>
      LinkNodeData.mk
        (insertA nd.outgoing_links fv.1 ((lookupA nd.outgoing_links fv.1).getD [] ++ fv.2))
        nd.incoming_links)) d = lookupA acc.1 d := modifyG_lookup_ne _ _ _ _ hd
  constructor
  · intro nd hnd
    obtain ⟨nd', hnd', hev⟩ := hacc.1 nd hnd
    obtain ⟨nd'', hnd'', hev'⟩ :=
      (backlinkPass3Targets_lookup id fv.1 fv.2 _ d).1 nd' (by rw [hg1]; exact hnd')
    exact ⟨nd'', hnd'', nodeEvolve_trans id nd nd' nd'' hev hev'⟩
  · intro hn
    exact (backlinkPass3Targets_lookup id fv.1 fv.2 _ d).2 (by rw [hg1]; exact hacc.2 hn)

/-- Pass 3 never changes the source node's incoming links. -/
theorem backlinkPass3_lookup_self_incoming (id : String)
    (ltp : List (String × List String)) (g : LinkGraph) :
    (∀ nd, lookupA g id = some nd →
      ∃ nd', lookupA (backlinkPass3 id ltp g).1 id = some nd' ∧
        nd'.incoming_links = nd.incoming_links) ∧
    (lookupA g id = none → lookupA (backlinkPass3 id ltp g).1 id = none) := by
  unfold backlinkPass3
  refine foldl_preserves
    (fun acc : LinkGraph × List (String × String) =>
      (∀ nd, lookupA g id = some nd →
        ∃ nd', lookupA acc.1 id = some nd' ∧ nd'.incoming_links = nd.incoming_links) ∧
      (lookupA g id = none → lookupA acc.1 id = none)) _ ltp ?_ (g, [])
    ⟨fun nd hnd => ⟨nd, hnd, rfl⟩, fun h => h⟩
  intro acc fv _ hacc
  dsimp only
  rw [backlinkPass3Targets_lookup_source]
  constructor
  · intro nd hnd
    obtain ⟨nd', hnd', hinc⟩ := hacc.1 nd hnd
    rw [modifyG_lookup_self, hnd', Option.map_some']
    exact ⟨_, rfl, hinc⟩
  · intro hn
    rw [modifyG_lookup_self, hacc.2 hn]
    rfl

/-- Pass 3 records the source in the incoming links of an existing target of
a collected field, leaving the target's (empty) outgoing links empty. -/
theorem backlinkPass3_dangling (id : String) (ltp : List (String × List String))
    (g : LinkGraph) (t field : String) (tids : List String)
    (hmem : (field, tids) ∈ ltp) (ht : t ∈ tids) (htne : t ≠ id)
    (nd : LinkNodeData) (hnd : lookupA g t = some nd) (hout : nd.outgoing_links = []) :
    ∃ nd', lookupA (backlinkPass3 id ltp g).1 t = some nd' ∧ nd'.outgoing_links = [] ∧
      id ∈ (lookupA nd'.incoming_links (field ++ "_back")).getD [] := by
  unfold backlinkPass3
  refine foldl_establishes_inv
    (fun acc : LinkGraph × List (String × String) =>
      ∃ ndx, lookupA acc.1 t = some ndx ∧ ndx.outgoing_links = [])
    (fun acc : LinkGraph × List (String × String) =>
      ∃ nd', lookupA acc.1 t = some nd' ∧ nd'.outgoing_links = [] ∧
        id ∈ (lookupA nd'.incoming_links (field ++ "_back")).getD [])
    _ ltp (field, tids) hmem ?_ ?_ ?_ (g, []) ⟨nd, hnd, hout⟩
  · intro acc hInv
    obtain ⟨ndx, hndx, houtx⟩ := hInv
    dsimp only
    have hg1 : lookupA (modifyG acc.1 id (fun nd =>
        LinkNodeData.mk
          (insertA nd.outgoing_links field ((lookupA nd.outgoing_links field).getD [] ++ tids))
          nd.incoming_links)) t = some ndx := by
      rw [modifyG_lookup_ne _ _ _ _ htne]
      exact hndx
    obtain ⟨nd', hnd', hout', hm⟩ :=
      backlinkPass3Targets_establish id field tids _ t ht htne ndx hg1
    exact ⟨nd', hnd', hout' ▸ houtx, hm⟩
  · intro acc fv _ hInv
    obtain ⟨ndx, hndx, houtx⟩ := hInv
    dsimp only
    have hg1 : lookupA (modifyG acc.1 id (fun nd =>
        LinkNodeData.mk
          (insertA nd.outgoing_links fv.1 ((lookupA nd.outgoing_links fv.1).getD [] ++ fv.2))
          nd.incoming_links)) t = some ndx := by
      rw [modifyG_lookup_ne _ _ _ _ htne]
      exact hndx
    obtain ⟨nd', hnd', hev⟩ := (backlinkPass3Targets_lookup id fv.1 fv.2 _ t).1 ndx hg1
    exact ⟨nd', hnd', hev.1.trans houtx⟩
  · intro acc fv _ hP
    obtain ⟨nd', hnd', hout', hm⟩ := hP
    dsimp only
    have hg1 : lookupA (modifyG acc.1 id (fun nd =>
        LinkNodeData.mk
          (insertA nd.outgoing_links fv.1 ((lookupA nd.outgoing_links fv.1).getD [] ++ fv.2))
          nd.incoming_links)) t = some nd' := by
      rw [modifyG_lookup_ne _ _ _ _ htne]
      exact hnd'
    obtain ⟨nd'', hnd'', hev⟩ := (backlinkPass3Targets_lookup id fv.1 fv.2 _ t).1 nd' hg1
    exact ⟨nd'', hnd'', hev.1.trans hout', hev.2.1 _ id hm⟩

/-- Pass 3 puts every collected target (including self references) into the
source's outgoing list of the collected field. -/
theorem backlinkPass3_outgoing_self (id : String) (ltp : List (String × List String))
    (g : LinkGraph) (field : String) (tids : List String)
    (hmem : (field, tids) ∈ ltp) (hsome : (lookupA g id).isSome) :
    ∃ nd', lookupA (backlinkPass3 id ltp g).1 id = some nd' ∧
      ∀ x ∈ tids, x ∈ (lookupA nd'.outgoing_links field).getD [] := by
  unfold backlinkPass3
  refine foldl_establishes_inv
    (fun acc : LinkGraph × List (String × String) => (lookupA acc.1 id).isSome)
    (fun acc : LinkGraph × List (String × String) =>
      ∃ nd', lookupA acc.1 id = some nd' ∧
        ∀ x ∈ tids, x ∈ (lookupA nd'.outgoing_links field).getD [])
    _ ltp (field, tids) hmem ?_ ?_ ?_ (g, []) hsome
  · intro acc hInv
    obtain ⟨nd1, hnd1⟩ := Option.isSome_iff_exists.mp hInv
    dsimp only
    rw [backlinkPass3Targets_lookup_source, modifyG_lookup_self, hnd1, Option.map_some']
    refine ⟨_, rfl, ?_⟩
    intro x hx
    dsimp only
    rw [lookupA_insertA_self]
    simp only [Option.getD_some]
    exact List.mem_append_right _ hx
  · intro acc fv _ hInv
    obtain ⟨nd1, hnd1⟩ := Option.isSome_iff_exists.mp hInv
    dsimp only
    rw [backlinkPass3Targets_lookup_source, modifyG_lookup_self, hnd1, Option.map_some']
    rfl
  · intro acc fv _ hP
    obtain ⟨nd', hnd', hall⟩ := hP
    dsimp only
    rw [backlinkPass3Targets_lookup_source, modifyG_lookup_self, hnd', Option.map_some']
    refine ⟨_, rfl, ?_⟩
    intro x hx
    dsimp only
    by_cases hf : fv.1 = field
    · subst hf
      rw [lookupA_insertA_self]
      simp only [Option.getD_some]
      exact List.mem_append_left _ (hall x hx)
    · rw [lookupA_insertA_ne _ _ _ _ (fun h => hf h.symm)]
      exact hall x hx

/-- Pass 3's incoming loop warns about a self reference in the processed
field. -/
theorem backlinkPass3Targets_warn (id field : String) (tids : List String)
    (g : LinkGraph) (hid : id ∈ tids) :
    (id, field) ∈ (backlinkPass3Targets id field tids g).2 := by
  unfold backlinkPass3Targets
  refine foldl_establishes
    (fun acc : LinkGraph × List (String × String) => (id, field) ∈ acc.2)
    _ tids id hid ?_ ?_ (g, [])
  · intro acc
    dsimp only
    rw [if_pos rfl]
    exact List.mem_append_right _ (by simp)
  · intro acc y _ hacc
    dsimp only
    split
    · exact List.mem_append_left _ hacc
    · exact hacc

/-- Pass 3 warns about a self reference in any collected field. -/
theorem backlinkPass3_warn (id : String) (ltp : List (String × List String))
    (g : LinkGraph) (field : String) (tids : List String)
    (hmem : (field, tids) ∈ ltp) (hid : id ∈ tids) :
    (id, field) ∈ (backlinkPass3 id ltp g).2 := by
  unfold backlinkPass3
  refine foldl_establishes
    (fun acc : LinkGraph × List (String × String) => (id, field) ∈ acc.2)
    _ ltp (field, tids) hmem ?_ ?_ (g, [])
  · intro acc
    dsimp only
    exact List.mem_append_right _ (backlinkPass3Targets_warn id field tids _ hid)
  · intro acc fv _ hacc
    dsimp only
    exact List.mem_append_left _ hacc

/-- One backlink application seen from a node other than the source: an
existing node evolves; an absent node stays absent or is created with empty
outgoing links and incoming entries that all name the source. -/
theorem backlinkApply_lookup_ne (cfg : List String) (id : String)
    (opts : List (String × String)) (g : LinkGraph) (d : String) (hd : d ≠ id) :
    (∀ nd, lookupA g d = some nd →
      ∃ nd', lookupA (backlinkApply cfg id opts g).1 d = some nd' ∧ nodeEvolve id nd nd') ∧
    (lookupA g d = none →
      lookupA (backlinkApply cfg id opts g).1 d = none ∨
      ∃ nd', lookupA (backlinkApply cfg id opts g).1 d = some nd' ∧
        nd'.outgoing_links = [] ∧
        (∀ f s, s ∈ (lookupA nd'.incoming_links f).getD [] → s = id)) := by
  unfold backlinkApply
  constructor
  · intro nd hnd
    have h1 := backlinkPass1_lookup_of_some cfg id opts g d nd hnd
    have h2 : lookupA (modifyG (backlinkPass1 cfg id opts g).2 id
        (fun nd => LinkNodeData.mk [] nd.incoming_links)) d = some nd := by
      rw [modifyG_lookup_ne _ _ _ _ hd]
      exact h1
    exact (backlinkPass3_lookup_ne id (backlinkPass1 cfg id opts g).1 _ d hd).1 nd h2
  · intro hn
    rcases backlinkPass1_lookup_of_none cfg id opts g d hn with h1 | h1
    · left
      have h2 : lookupA (modifyG (backlinkPass1 cfg id opts g).2 id
          (fun nd => LinkNodeData.mk [] nd.incoming_links)) d = none := by
        rw [modifyG_lookup_ne _ _ _ _ hd]
        exact h1
      exact (backlinkPass3_lookup_ne id (backlinkPass1 cfg id opts g).1 _ d hd).2 h2
    · right
      have h2 : lookupA (modifyG (backlinkPass1 cfg id opts g).2 id
          (fun nd => LinkNodeData.mk [] nd.incoming_links)) d = some defaultNode := by
        rw [modifyG_lookup_ne _ _ _ _ hd]
        exact h1
      obtain ⟨nd', hnd', hev⟩ :=
        (backlinkPass3_lookup_ne id (backlinkPass1 cfg id opts g).1 _ d hd).1 defaultNode h2
      refine ⟨nd', hnd', hev.1, ?_⟩
      intro f s hs
      rcases hev.2.2 f s hs with h | h
      · simp [defaultNode] at h
      · exact h

/-- One backlink application seen from the source node itself: its incoming
links are preserved exactly (or created empty). -/
theorem backlinkApply_lookup_self (cfg : List String) (id : String)
    (opts : List (String × String)) (g : LinkGraph) :
    (∀ nd, lookupA g id = some nd →
      ∃ nd', lookupA (backlinkApply cfg id opts g).1 id = some nd' ∧
        nd'.incoming_links = nd.incoming_links) ∧
    (lookupA g id = none →
      lookupA (backlinkApply cfg id opts g).1 id = none ∨
      ∃ nd', lookupA (backlinkApply cfg id opts g).1 id = some nd' ∧
        nd'.incoming_links = []) := by
  unfold backlinkApply
  constructor
  · intro nd hnd
    have h1 := backlinkPass1_lookup_of_some cfg id opts g id nd hnd
    have h2 : lookupA (modifyG (backlinkPass1 cfg id opts g).2 id
        (fun nd => LinkNodeData.mk [] nd.incoming_links)) id =
        some (LinkNodeData.mk [] nd.incoming_links) := by
      rw [modifyG_lookup_self, h1, Option.map_some']
    obtain ⟨nd', hnd', hinc⟩ :=
      (backlinkPass3_lookup_self_incoming id (backlinkPass1 cfg id opts g).1 _).1 _ h2
    exact ⟨nd', hnd', hinc⟩
  · intro hn
    rcases backlinkPass1_lookup_of_none cfg id opts g id hn with h1 | h1
    · left
      have h2 : lookupA (modifyG (backlinkPass1 cfg id opts g).2 id
          (fun nd => LinkNodeData.mk [] nd.incoming_links)) id = none := by
        rw [modifyG_lookup_self, h1]
        rfl
      exact (backlinkPass3_lookup_self_incoming id (backlinkPass1 cfg id opts g).1 _).2 h2
    · right
      have h2 : lookupA (modifyG (backlinkPass1 cfg id opts g).2 id
          (fun nd => LinkNodeData.mk [] nd.incoming_links)) id =
          some (LinkNodeData.mk [] defaultNode.incoming_links) := by
        rw [modifyG_lookup_self, h1, Option.map_some']
      obtain ⟨nd', hnd', hinc⟩ :=
        (backlinkPass3_lookup_self_incoming id (backlinkPass1 cfg id opts g).1 _).1 _ h2
      exact ⟨nd', hnd', hinc⟩

/-- One backlink application, applied to a directive that links to a target t
other than itself via a configured field, produces a node for t with empty
outgoing links and the source recorded in t's incoming backlink list —
provided t was absent or had empty outgoing links before. -/
theorem backlinkApply_dangling (cfg : List String) (id : String)
    (opts : List (String × String)) (g : LinkGraph) (t field v : String)
    (hf : field ∈ cfg) (hv : lookupA opts field = some v) (ht : t ∈ splitTargets v)
    (htne : t ≠ id)
    (hP : lookupA g t = none ∨ ∃ nd, lookupA g t = some nd ∧ nd.outgoing_links = []) :
    ∃ nd', lookupA (backlinkApply cfg id opts g).1 t = some nd' ∧
      nd'.outgoing_links = [] ∧
      id ∈ (lookupA nd'.incoming_links (field ++ "_back")).getD [] := by
  have hne : splitTargets v ≠ [] := fun h => by rw [h] at ht; exact absurd ht (by simp)
  obtain ⟨hmem, hidsome, htids⟩ := backlinkPass1_collects cfg id opts g field v hf hv hne
  have htsome := htids t ht htne
  have ht1 : ∃ nd1, lookupA (backlinkPass1 cfg id opts g).2 t = some nd1 ∧
      nd1.outgoing_links = [] := by
    rcases hP with hP | ⟨nd, hnd, hout⟩
    · rcases backlinkPass1_lookup_of_none cfg id opts g t hP with h1 | h1
      · rw [h1] at htsome
        simp at htsome
      · exact ⟨defaultNode, h1, rfl⟩
    · exact ⟨nd, backlinkPass1_lookup_of_some cfg id opts g t nd hnd, hout⟩
  obtain ⟨nd1, hnd1, hout1⟩ := ht1
  unfold backlinkApply
  have h2 : lookupA (modifyG (backlinkPass1 cfg id opts g).2 id
      (fun nd => LinkNodeData.mk [] nd.incoming_links)) t = some nd1 := by
    rw [modifyG_lookup_ne _ _ _ _ htne]
    exact hnd1
  exact backlinkPass3_dangling id (backlinkPass1 cfg id opts g).1 _ t field
    (splitTargets v) hmem ht htne nd1 h2 hout1

/-- One backlink application, applied to a directive that lists itself among
the targets of a configured field, keeps the self reference in its own
outgoing list and emits a self-reference warning. -/
theorem backlinkApply_self_outgoing (cfg : List String) (id : String)
    (opts : List (String × String)) (g : LinkGraph) (field v : String)
    (hf : field ∈ cfg) (hv : lookupA opts field = some v) (hd : id ∈ splitTargets v) :
    (∃ nd', lookupA (backlinkApply cfg id opts g).1 id = some nd' ∧
      id ∈ (lookupA nd'.outgoing_links field).getD []) ∧
    (id, field) ∈ (backlinkApply cfg id opts g).2 := by
  have hne : splitTargets v ≠ [] := fun h => by rw [h] at hd; exact absurd hd (by simp)
  obtain ⟨hmem, hidsome, -⟩ := backlinkPass1_collects cfg id opts g field v hf hv hne
  obtain ⟨nd1, hnd1⟩ := Option.isSome_iff_exists.mp hidsome
  unfold backlinkApply
  have h2 : lookupA (modifyG (backlinkPass1 cfg id opts g).2 id
      (fun nd => LinkNodeData.mk [] nd.incoming_links)) id =
      some (LinkNodeData.mk [] nd1.incoming_links) := by
    rw [modifyG_lookup_self, hnd1, Option.map_some']
  constructor
  · obtain ⟨nd', hnd', hall⟩ := backlinkPass3_outgoing_self id
      (backlinkPass1 cfg id opts g).1 _ field (splitTargets v) hmem (by rw [h2]; rfl)
    exact ⟨nd', hnd', hall id hd⟩
  · exact backlinkPass3_warn id (backlinkPass1 cfg id opts g).1 _ field
      (splitTargets v) hmem hd

/-- No node of the graph lists itself among its own incoming links. -/
def noSelfIncoming (g : LinkGraph) : Prop :=
  ∀ k nd f, lookupA g k = some nd → k ∉ (lookupA nd.incoming_links f).getD []

theorem noSelfIncoming_backlinkApply (cfg : List String) (id : String)
    (opts : List (String × String)) (g : LinkGraph) (hI : noSelfIncoming g) :
    noSelfIncoming (backlinkApply cfg id opts g).1 := by
  intro k nd' f hnd' hmem
  by_cases hk : k = id
  · subst hk
    cases hg : lookupA g k with
    | some nd =>
      obtain ⟨nd'', hnd'', hinc⟩ := (backlinkApply_lookup_self cfg k opts g).1 nd hg
      rw [hnd'] at hnd''
      injection hnd'' with he
      rw [he, hinc] at hmem
      exact hI k nd f hg hmem
    | none =>
      rcases (backlinkApply_lookup_self cfg k opts g).2 hg with h | ⟨nd'', hnd'', hinc⟩
      · rw [hnd'] at h
        simp at h
      · rw [hnd'] at hnd''
        injection hnd'' with he
        rw [he, hinc] at hmem
        simp at hmem
  · cases hg : lookupA g k with
    | some nd =>
      obtain ⟨nd'', hnd'', hev⟩ := (backlinkApply_lookup_ne cfg id opts g k hk).1 nd hg
      rw [hnd'] at hnd''
      injection hnd'' with he
      subst he
      rcases hev.2.2 f k hmem with h | h
      · exact hI k nd f hg h
      · exact hk h
    | none =>
      rcases (backlinkApply_lookup_ne cfg id opts g k hk).2 hg with h | ⟨nd'', hnd'', -, hall⟩
      · rw [hnd'] at h
        simp at h
      · rw [hnd'] at hnd''
        injection hnd'' with he
        subst he
        exact hk (hall f k hmem)

theorem lookupA_mem {α β : Type} [DecidableEq α] (m : List (α × β)) (k : α) (v : β)
    (h : lookupA m k = some v) : (k, v) ∈ m := by
  induction m with
  | nil => simp at h
  | cons kv r ih =>
    obtain ⟨k', v'⟩ := kv
    by_cases hk : k' = k
    · subst hk
      rw [lookupA_cons, if_pos rfl] at h
      injection h with h
      subst h
      exact List.mem_cons_self _ _
    · rw [lookupA_cons, if_neg hk] at h
      exact List.mem_cons_of_mem _ (ih h)

theorem lookupA_filter_keys (g : LinkGraph) (p : String × LinkNodeData → Bool) (t : String)
    (hp : ∀ nd, p (t, nd) = false) : lookupA (g.filter p) t = none := by
  induction g with
  | nil => simp
  | cons kv r ih =>
    obtain ⟨k, v⟩ := kv
    by_cases hk : k = t
    · subst hk
      rw [List.filter_cons, hp v]
      simpa using ih
    · rw [List.filter_cons]
      split
      · rw [lookupA_cons, if_neg hk]
        exact ih
      · exact ih

/-- The cleared, retained graph built at the start of apply_to_all has no
incoming links anywhere. -/
theorem noSelfIncoming_cleared (g : LinkGraph) (valid : List String) :
    noSelfIncoming
      ((g.map (fun kv => (kv.1, LinkNodeData.mk kv.2.outgoing_links []))).filter
        (fun kv => kv.1 ∈ valid)) := by
  intro k nd f hnd hmem
  have hmem2 := lookupA_mem _ k nd hnd
  rw [List.mem_filter] at hmem2
  obtain ⟨hmm, -⟩ := hmem2
  rw [List.mem_map] at hmm
  obtain ⟨kv, -, heq⟩ := hmm
  have hinc : nd.incoming_links = [] := by
    have h2 := congrArg Prod.snd heq
    simp only [Prod.snd] at h2
    rw [← h2]
  rw [hinc] at hmem
  simp at hmem

theorem storeFold_noSelfIncoming (cfg : List String) (store : List StoreEntry)
    (init : LinkGraph × List (String × String)) (hI : noSelfIncoming init.1) :
    noSelfIncoming
      (store.foldl
        (fun acc d =>
          let pr := backlinkApply cfg d.id d.options acc.1
          (pr.1, acc.2 ++ pr.2)) init).1 := by
  refine foldl_preserves
    (fun acc : LinkGraph × List (String × String) => noSelfIncoming acc.1) _ store ?_
    init hI
  intro acc d _ hacc
  exact noSelfIncoming_backlinkApply cfg d.id d.options acc.1 hacc

theorem storeFold_self_outgoing (cfg : List String) (store : List StoreEntry)
    (init : LinkGraph × List (String × String)) (s : String)
    (opts : List (String × String)) (field v : String)
    (hnodup : (store.map StoreEntry.id).Nodup) (hmem : StoreEntry.mk s opts ∈ store)
    (hf : field ∈ cfg) (hv : lookupA opts field = some v) (hd : s ∈ splitTargets v) :
    (∃ nd, lookupA
        (store.foldl
          (fun acc d =>
            let pr := backlinkApply cfg d.id d.options acc.1
            (pr.1, acc.2 ++ pr.2)) init).1 s = some nd ∧
      s ∈ (lookupA nd.outgoing_links field).getD []) ∧
    (s, field) ∈
      (store.foldl
        (fun acc d =>
          let pr := backlinkApply cfg d.id d.options acc.1
          (pr.1, acc.2 ++ pr.2)) init).2 := by
  obtain ⟨pre, post, hsplit⟩ := List.append_of_mem hmem
  subst hsplit
  have hpost : ∀ u ∈ post, u.id ≠ s := by
    intro u hu hus
    rw [List.map_append, List.map_cons] at hnodup
    have := (List.nodup_append.mp hnodup).2.1
    rw [List.nodup_cons] at this
    have hm : u.id ∈ post.map StoreEntry.id := List.mem_map_of_mem StoreEntry.id hu
    rw [hus] at hm
    exact this.1 hm
  rw [List.foldl_append, List.foldl_cons]
  set mid := List.foldl
    (fun acc d =>
      let pr := backlinkApply cfg d.id d.options acc.1
      (pr.1, acc.2 ++ pr.2)) init pre with hmid
  have hest := backlinkApply_self_outgoing cfg s opts mid.1 field v hf hv hd
  refine foldl_preserves
    (fun acc : LinkGraph × List (String × String) =>
      (∃ nd, lookupA acc.1 s = some nd ∧ s ∈ (lookupA nd.outgoing_links field).getD []) ∧
      (s, field) ∈ acc.2) _ post ?_ _ ⟨hest.1, List.mem_append_right _ hest.2⟩
  intro acc u hu hacc
  obtain ⟨⟨nd, hnd, hout⟩, hw⟩ := hacc
  dsimp only
  constructor
  · obtain ⟨nd', hnd', hev⟩ :=
      (backlinkApply_lookup_ne cfg u.id u.options acc.1 s
        (fun h => hpost u hu h.symm)).1 nd hnd
    refine ⟨nd', hnd', ?_⟩
    rw [hev.1]
    exact hout
  · exact List.mem_append_left _ hw

theorem storeFold_dangling (cfg : List String) (store : List StoreEntry)
    (init : LinkGraph × List (String × String)) (s : String)
    (opts : List (String × String)) (field v t : String)
    (hinitP : lookupA init.1 t = none ∨
      ∃ nd, lookupA init.1 t = some nd ∧ nd.outgoing_links = [])
    (hmem : StoreEntry.mk s opts ∈ store) (hf : field ∈ cfg)
    (hv : lookupA opts field = some v) (ht : t ∈ splitTargets v)
    (hts : t ∉ store.map StoreEntry.id) (hne : t ≠ s) :
    ∃ nd, lookupA
        (store.foldl
          (fun acc d =>
            let pr := backlinkApply cfg d.id d.options acc.1
            (pr.1, acc.2 ++ pr.2)) init).1 t = some nd ∧
      nd.outgoing_links = [] ∧
      s ∈ (lookupA nd.incoming_links (field ++ "_back")).getD [] := by
  have hids : ∀ u ∈ store, t ≠ u.id := by
    intro u hu hut
    exact hts (hut ▸ List.mem_map_of_mem StoreEntry.id hu)
  obtain ⟨pre, post, hsplit⟩ := List.append_of_mem hmem
  have hpre : ∀ u ∈ pre, u ∈ store := by
    intro u hu
    rw [hsplit]
    exact List.mem_append_left _ hu
  have hpost : ∀ u ∈ post, u ∈ store := by
    intro u hu
    rw [hsplit]
    exact List.mem_append_right _ (List.mem_cons_of_mem _ hu)
  rw [hsplit, List.foldl_append, List.foldl_cons]
  have hmidP : lookupA (List.foldl
      (fun acc d =>
        let pr := backlinkApply cfg d.id d.options acc.1
        (pr.1, acc.2 ++ pr.2)) init pre).1 t = none ∨
      ∃ nd, lookupA (List.foldl
        (fun acc d =>
          let pr := backlinkApply cfg d.id d.options acc.1
          (pr.1, acc.2 ++ pr.2)) init pre).1 t = some nd ∧ nd.outgoing_links = [] := by
    refine foldl_preserves
      (fun acc : LinkGraph × List (String × String) =>
        lookupA acc.1 t = none ∨
        ∃ nd, lookupA acc.1 t = some nd ∧ nd.outgoing_links = []) _ pre ?_ init hinitP
    intro acc u hu hacc
    dsimp only
    rcases hacc with hn | ⟨nd, hnd, hout⟩
    · rcases (backlinkApply_lookup_ne cfg u.id u.options acc.1 t
          (hids u (hpre u hu))).2 hn with h | ⟨nd', hnd', hout', -⟩
      · exact Or.inl h
      · exact Or.inr ⟨nd', hnd', hout'⟩
    · obtain ⟨nd', hnd', hev⟩ :=
        (backlinkApply_lookup_ne cfg u.id u.options acc.1 t (hids u (hpre u hu))).1 nd hnd
      exact Or.inr ⟨nd', hnd', hev.1.trans hout⟩
  have hest := backlinkApply_dangling cfg s opts _ t field v hf hv ht hne hmidP
  refine foldl_preserves
    (fun acc : LinkGraph × List (String × String) =>
      ∃ nd, lookupA acc.1 t = some nd ∧ nd.outgoing_links = [] ∧
        s ∈ (lookupA nd.incoming_links (field ++ "_back")).getD []) _ post ?_ _ hest
  intro acc u hu hacc
  obtain ⟨nd, hnd, hout, hs⟩ := hacc
  dsimp only
  obtain ⟨nd', hnd', hev⟩ :=
    (backlinkApply_lookup_ne cfg u.id u.options acc.1 t (hids u (hpost u hu))).1 nd hnd
  exact ⟨nd', hnd', hev.1.trans hout, hev.2.1 _ s hs⟩

/-- C1, counterexample: in BacklinkFunction::apply the self-target is skipped
only when filling incoming_links (directive_functions.rs lines 101-104); the
outgoing_links extend at line 96 keeps it. For a store with one directive d
whose "links" option names d itself, the rebuilt graph stores "d" inside d's
own outgoing_links["links"] (and the self-reference warning is emitted), so
the self-edge is not dropped from the outgoing map. -/
theorem c1_counterexample :
    (lookupA (apply_to_all ["links"] [StoreEntry.mk "d" [("links", "d")]] []).1 "d").map
        (fun nd => lookupA nd.outgoing_links "links") = some (some ["d"]) ∧
    (apply_to_all ["links"] [StoreEntry.mk "d" [("links", "d")]] []).2 =
      [("d", "links")] :=
  ⟨rfl, rfl⟩

/-- C1, amended: after apply_to_all, self-edges are dropped from the incoming
maps (no node ever lists itself among any incoming_links field) and the
self-reference warning is emitted; but the self-edge is kept in the source
node's own outgoing_links[field]. -/
theorem c1_self_links_amended (cfg : List String) (store : List StoreEntry)
    (g : LinkGraph) :
    noSelfIncoming (apply_to_all cfg store g).1 ∧
    (∀ s opts field v, (store.map StoreEntry.id).Nodup →
      StoreEntry.mk s opts ∈ store → field ∈ cfg →
      lookupA opts field = some v → s ∈ splitTargets v →
      (∃ nd, lookupA (apply_to_all cfg store g).1 s = some nd ∧
        s ∈ (lookupA nd.outgoing_links field).getD []) ∧
      (s, field) ∈ (apply_to_all cfg store g).2) := by
  constructor
  · exact storeFold_noSelfIncoming cfg store _
      (noSelfIncoming_cleared g (store.map StoreEntry.id))
  · intro s opts field v hnodup hmem hf hv hd
    exact storeFold_self_outgoing cfg store _ s opts field v hnodup hmem hf hv hd

/-- C1 witness: the amended theorem applied to the one-directive store with a
self-target, evaluated concretely. -/
theorem c1_self_links_amended_witness :
    (∃ nd,
      lookupA (apply_to_all ["links"] [StoreEntry.mk "d" [("links", "d")]] []).1 "d" =
        some nd ∧
      "d" ∈ (lookupA nd.outgoing_links "links").getD []) ∧
    ("d", "links") ∈ (apply_to_all ["links"] [StoreEntry.mk "d" [("links", "d")]] []).2 :=
  (c1_self_links_amended ["links"] [StoreEntry.mk "d" [("links", "d")]] []).2
    "d" [("links", "d")] "links" "d" (by decide) (by decide) (by decide) rfl (by decide)

/-- C6, counterexample: a dangling target "t" gets its incoming-only node
after a full rebuild, but the watch-mode event loop's final cleanup
(main.rs lines 331-338) retains only nodes whose id is a current directive
id, so the node for "t" is removed after an incremental update; the claim's
"equally after an incremental (watch-mode) update" fails. -/
theorem c6_counterexample :
    lookupA (apply_to_all ["links"] [StoreEntry.mk "s" [("links", "t")]] []).1 "t" =
      some (LinkNodeData.mk [] [("links_back", ["s"])]) ∧
    lookupA (watchUpdate ["links"] ["s"] [StoreEntry.mk "s" [("links", "t")]] ["s"]
      (apply_to_all ["links"] [StoreEntry.mk "s" [("links", "t")]] []).1) "t" = none :=
  ⟨rfl, rfl⟩

/-- C6, amended: after a full rebuild (apply_to_all) a dangling target t is
kept: the graph holds a node for t with empty outgoing_links whose
incoming_links[field + "_back"] contains the source s. After a watch-mode
update, however, any graph node whose id is not a current directive id —
dangling targets included — is removed by the final cleanup. -/
theorem c6_dangling_target_amended (cfg : List String) (store : List StoreEntry)
    (g : LinkGraph) (s t : String) (opts : List (String × String)) (field v : String)
    (hmem : StoreEntry.mk s opts ∈ store) (hf : field ∈ cfg)
    (hv : lookupA opts field = some v) (ht : t ∈ splitTargets v)
    (hts : t ∉ store.map StoreEntry.id) :
    (∃ nd, lookupA (apply_to_all cfg store g).1 t = some nd ∧
      nd.outgoing_links = [] ∧
      s ∈ (lookupA nd.incoming_links (field ++ "_back")).getD []) ∧
    (∀ idsToClear toReapply validIds g2, t ∉ validIds →
      lookupA (watchUpdate cfg idsToClear toReapply validIds g2) t = none) := by
  constructor
  · have hne : t ≠ s := fun h => hts (h ▸ List.mem_map_of_mem StoreEntry.id hmem)
    have hinit : lookupA
        ((g.map (fun kv => (kv.1, LinkNodeData.mk kv.2.outgoing_links []))).filter
          (fun kv => kv.1 ∈ store.map StoreEntry.id)) t = none :=
      lookupA_filter_keys _ _ t (fun nd => by simp [hts])
    exact storeFold_dangling cfg store _ s opts field v t (Or.inl hinit)
      hmem hf hv ht hts hne
  · intro idsToClear toReapply validIds g2 htv
    exact lookupA_filter_keys _ _ t (fun nd => by simp [htv])

/-- C6 witness: the amended theorem applied to the one-directive store whose
"links" option names the absent id "t", with the watch-mode conjunct
instantiated at the rebuilt graph. -/
theorem c6_dangling_target_amended_witness :
    (∃ nd,
      lookupA (apply_to_all ["links"] [StoreEntry.mk "s" [("links", "t")]] []).1 "t" =
        some nd ∧
      nd.outgoing_links = [] ∧
      "s" ∈ (lookupA nd.incoming_links ("links" ++ "_back")).getD []) ∧
    lookupA (watchUpdate ["links"] ["s"] [StoreEntry.mk "s" [("links", "t")]] ["s"]
      (apply_to_all ["links"] [StoreEntry.mk "s" [("links", "t")]] []).1) "t" = none := by
  have h := c6_dangling_target_amended ["links"] [StoreEntry.mk "s" [("links", "t")]] []
    "s" "t" [("links", "t")] "links" "t" (by decide) (by decide) rfl (by decide) (by decide)
  exact ⟨h.1, h.2 ["s"] [StoreEntry.mk "s" [("links", "t")]] ["s"] _ (by decide)⟩

end RstParser
